import Mathlib

/-!
Verification of the Merkle-tree core of the IMT-rust repository.

This file is a shallow embedding of the tree engines of the repository:

* the incremental Merkle tree (`src/src/tree/incremental.rs`),
* the Merkle proof verifier (`src/src/tree/proof.rs`),
* the commitment codec (`src/src/tree/commitment.rs`),
* the sparse Merkle tree (`src/src/tree/sparse_merkle_tree.rs`).

Hashing: the IMT uses SHA-256 (`hash_bytes` over raw bytes, `hash_pair`
over the 64-byte concatenation of two hashes); the SMT uses a Poseidon
construction (`hash_kv`, `hash_branch`, `get_digest`).  Both are modelled
as free term algebras (`HashT`, `SDigest`): each distinct hashing
operation is a distinct constructor, so the model is the ideal
collision-free hash.  Equalities proved below hold for the real hash by
homomorphism; disequalities hold up to hash collisions, which is the
standard idealisation for a collision-resistant hash.  Key digests of the
SMT are only ever consumed through their bit sequence, so they are
modelled as a bit function `B : String → Nat → Bool` over which all
statements quantify.  Bytes are modelled as natural numbers.
-/

/-- Free term algebra modelling the SHA-256 hashes of the IMT path:
`inj` is `hash_bytes` on a byte string, `pair` is `hash_pair`
(`src/src/utils/hash.rs`). -/
inductive HashT where
  | inj (data : List Nat) : HashT
  | pair (a b : HashT) : HashT
deriving DecidableEq, Repr

instance : Inhabited HashT := ⟨HashT.inj []⟩

/-- `hash_bytes` of `src/src/utils/hash.rs` (SHA-256 of the input). -/
def hash_bytes (input : List Nat) : HashT := HashT.inj input

/-- `hash_pair` of `src/src/utils/hash.rs`. -/
def hash_pair (a b : HashT) : HashT := HashT.pair a b

/-- The error enumeration of `src/src/errors.rs`.  Note that it has no
`KeyCollision` variant. -/
inductive IndexerError where
  | TreeFull
  | IndexOutOfBounds
  | LeafNotAppended
  | SerializationError (msg : String)
  | IoError
  | ChecksumError
  | InvalidData (msg : String)
  | StorageError (msg : String)
  | NotImplemented (msg : String)
deriving DecidableEq, Repr

/-- Zero hash of level `l`: `zero_hashes[0] = hash_bytes(&[0u8])` and
`zero_hashes[l+1] = hash_pair(zero_hashes[l], zero_hashes[l])`
(`IncrementalMerkleTree::compute_zero_hashes`). -/
def zeroHash : Nat → HashT
  | 0 => hash_bytes [0]
  | l + 1 => hash_pair (zeroHash l) (zeroHash l)

/-- The `zero_hashes` vector: entries `zeroHash 0 .. zeroHash depth`. -/
def compute_zero_hashes (depth : Nat) : List HashT :=
  (List.range (depth + 1)).map zeroHash

/-- One level of the bottom-up reduction used by `root` and `prove`:
pair the nodes two by two, an odd tail is paired with the zero hash of
the current level (the `step_by(2)` loop in `IncrementalMerkleTree::root`). -/
def pairUp (zl : HashT) : List HashT → List HashT
  | [] => []
  | [x] => [hash_pair x zl]
  | x :: y :: rest => hash_pair x y :: pairUp zl rest

/-- The `for lvl in 0..depth` reduction of `IncrementalMerkleTree::root`:
`fuel` levels remain, `lvl` is the current level, `z` reads the stored
`zero_hashes` vector. -/
def reduceFrom (z : Nat → HashT) : Nat → Nat → List HashT → List HashT
  | 0, _, nodes => nodes
  | fuel + 1, lvl, nodes => reduceFrom z fuel (lvl + 1) (pairUp (z lvl) nodes)

/-- The sibling-collecting loop of `IncrementalMerkleTree::prove`:
at each level record `current_level[idx ^ 1]` (or the zero hash when out
of range) and reduce to the next level. -/
def proveSibs (z : Nat → HashT) : Nat → Nat → Nat → List HashT → List HashT
  | 0, _, _, _ => []
  | fuel + 1, lvl, idx, nodes =>
    let sibIdx := idx ^^^ 1
    let sib := if sibIdx < nodes.length then nodes.getD sibIdx default else z lvl
    sib :: proveSibs z fuel (lvl + 1) (idx / 2) (pairUp (z lvl) nodes)

/-- The frontier-update loop of `IncrementalMerkleTree::append` (and of
`rebuild_frontier`).  `leavesNew` is the leaf vector after the push; the
loop reads `leaves[pos+1]` when `pos` is even and `frontier[lvl]` when
`pos` is odd, and writes the parent into `frontier[lvl+1]`. -/
def frontierLoop (z : Nat → HashT) (leavesNew : List HashT) :
    Nat → Nat → Nat → HashT → List HashT → List HashT
  | 0, _, _, _, fr => fr
  | fuel + 1, lvl, pos, cur, fr =>
    if pos % 2 = 0 then
      let right := if pos + 1 < leavesNew.length then leavesNew.getD (pos + 1) default
        else z lvl
      let parent := hash_pair cur right
      frontierLoop z leavesNew fuel (lvl + 1) (pos / 2) parent (fr.set (lvl + 1) parent)
    else
      let left := fr.getD lvl default
      let parent := hash_pair left cur
      frontierLoop z leavesNew fuel (lvl + 1) (pos / 2) parent (fr.set (lvl + 1) parent)

instance {α β : Type} [DecidableEq α] [DecidableEq β] : DecidableEq (Except α β) :=
  fun x y =>
    match x, y with
    | Except.ok a, Except.ok b =>
      if h : a = b then isTrue (by rw [h]) else isFalse (by simp [h])
    | Except.error a, Except.error b =>
      if h : a = b then isTrue (by rw [h]) else isFalse (by simp [h])
    | Except.ok _, Except.error _ => isFalse (by simp)
    | Except.error _, Except.ok _ => isFalse (by simp)

/-- The hash chain produced by pairing a node with the zero hashes of
successive levels (the path of a single leaf in an otherwise empty
tree): proof device for the frontier analysis. -/
def chainZ (z : Nat → HashT) : Nat → HashT → Nat → HashT
  | _, cur, 0 => cur
  | lvl, cur, d + 1 => chainZ z (lvl + 1) (hash_pair cur (z lvl)) d

/-- `MerkleProof` of `src/src/tree/proof.rs`. -/
structure MerkleProof where
  leaf_index : Nat
  leaf : HashT
  siblings : List HashT
deriving DecidableEq, Repr

/-- The verification fold of `MerkleProof::verify_proof`: combine with the
sibling on the side given by the parity of the running index. -/
def verifyLoop : HashT → Nat → List HashT → HashT
  | computed, _, [] => computed
  | computed, idx, s :: rest =>
    verifyLoop (if idx % 2 = 0 then hash_pair computed s else hash_pair s computed)
      (idx / 2) rest

/-- `MerkleProof::verify_proof`. -/
def MerkleProof.verify_proof (leaf : HashT) (leaf_index : Nat) (siblings : List HashT)
    (root : HashT) : Bool :=
  decide (verifyLoop leaf leaf_index siblings = root)

/-- `MerkleProof::verify`. -/
def MerkleProof.verify (p : MerkleProof) (root : HashT) : Bool :=
  MerkleProof.verify_proof p.leaf p.leaf_index p.siblings root

/-- `IncrementalMerkleTree` of `src/src/tree/incremental.rs`.  The
`serializable.leaves` vector is `leaves`; `capacity`, `zero_hashes` and
`frontier` are the stored fields of the Rust struct. -/
structure IncrementalMerkleTree where
  leaves : List HashT
  depth : Nat
  capacity : Nat
  zero_hashes : List HashT
  frontier : List HashT
deriving DecidableEq, Repr

namespace IncrementalMerkleTree

/-- Access `zero_hashes[lvl]` the way the Rust code indexes the vector. -/
def zf (t : IncrementalMerkleTree) : Nat → HashT :=
  fun lvl => t.zero_hashes.getD lvl default

/-- `IncrementalMerkleTree::with_depth` (also `new`): empty leaves,
`capacity = 1 << depth`, precomputed zero hashes, frontier filled with
`zero_hashes[0]`.  The Rust code asserts `1 ≤ depth ≤ 63`; the assertion
is carried as a hypothesis of `Reachable.base` below. -/
def with_depth (depth : Nat) : IncrementalMerkleTree where
  leaves := []
  depth := depth
  capacity := 2 ^ depth
  zero_hashes := compute_zero_hashes depth
  frontier := List.replicate (depth + 1) (zeroHash 0)

/-- `IncrementalMerkleTree::is_full`: `len >= capacity`. -/
def is_full (t : IncrementalMerkleTree) : Bool :=
  decide (t.capacity ≤ t.leaves.length)

/-- `IncrementalMerkleTree::append`.  Returns the Rust result together
with the post-state of `&mut self` (the state is unchanged on error). -/
def append (t : IncrementalMerkleTree) (leaf_data : List Nat) :
    Except IndexerError Nat × IncrementalMerkleTree :=
  if t.capacity ≤ t.leaves.length then (Except.error IndexerError.TreeFull, t)
  else
    let leaf_hash := hash_bytes leaf_data
    let index := t.leaves.length
    let leavesNew := t.leaves ++ [leaf_hash]
    (Except.ok index,
      { t with
        leaves := leavesNew
        frontier := frontierLoop t.zf leavesNew t.depth 0 index leaf_hash t.frontier })

/-- `IncrementalMerkleTree::update`.  Returns the Rust result together
with the post-state of `&mut self` (the state is unchanged on error). -/
def update (t : IncrementalMerkleTree) (index : Nat) (leaf_data : List Nat) :
    Except IndexerError Unit × IncrementalMerkleTree :=
  if t.leaves.length ≤ index then (Except.error IndexerError.IndexOutOfBounds, t)
  else
    (Except.ok (), { t with leaves := t.leaves.set index (hash_bytes leaf_data) })

/-- `IncrementalMerkleTree::root`: `zero_hashes[depth]` when empty, else
the bottom-up level reduction of the leaves, taking the first element of
the final level (with the empty-tree fallback of `unwrap_or`). -/
def root (t : IncrementalMerkleTree) : HashT :=
  if t.leaves.isEmpty then t.zf t.depth
  else (reduceFrom t.zf t.depth 0 t.leaves).headD (t.zf t.depth)

/-- `IncrementalMerkleTree::prove`. -/
def prove (t : IncrementalMerkleTree) (leaf_index : Nat) :
    Except IndexerError MerkleProof :=
  if t.leaves.length ≤ leaf_index then Except.error IndexerError.LeafNotAppended
  else
    Except.ok
      { leaf_index := leaf_index
        leaf := t.leaves.getD leaf_index default
        siblings := proveSibs t.zf t.depth 0 leaf_index t.leaves }

end IncrementalMerkleTree

/-- Trees built by `with_depth` (with the depth assertions of the Rust
constructor) followed by any sequence of successful `append` and `update`
operations. -/
inductive Reachable : IncrementalMerkleTree → Prop
  | base (d : Nat) : 1 ≤ d → d ≤ 63 → Reachable (IncrementalMerkleTree.with_depth d)
  | append_ok (t t' : IncrementalMerkleTree) (data : List Nat) (i : Nat) :
      Reachable t → t.append data = (Except.ok i, t') → Reachable t'
  | update_ok (t t' : IncrementalMerkleTree) (i : Nat) (data : List Nat) :
      Reachable t → t.update i data = (Except.ok (), t') → Reachable t'

/-- Reference definition of the spec (claim C2): `node_hash(0, i)` is
`leaves[i]` when `i < len(leaves)` and `zero_hashes[0]` otherwise,
`node_hash(l+1, i) = H(node_hash(l, 2i) ‖ node_hash(l, 2i+1))`.  Stated
from the spec's words, to be compared with `root`. -/
def nodeHash (leaves : List HashT) : Nat → Nat → HashT
  | 0, i => if i < leaves.length then leaves.getD i default else zeroHash 0
  | l + 1, i => hash_pair (nodeHash leaves l (2 * i)) (nodeHash leaves l (2 * i + 1))

/-- Generalisation of `nodeHash` used in the proofs: the base row `nodes`
sits at level `lvl`, missing base entries are `zeroHash lvl`. -/
def zNodeHash (lvl : Nat) (nodes : List HashT) : Nat → Nat → HashT
  | 0, i => if i < nodes.length then nodes.getD i default else zeroHash lvl
  | l + 1, i => hash_pair (zNodeHash lvl nodes l (2 * i)) (zNodeHash lvl nodes l (2 * i + 1))

/-! ## Commitment codec (`src/src/tree/commitment.rs`) -/

/-- `u32::to_le_bytes`. -/
def u32_to_le_bytes (n : Nat) : List Nat :=
  [n % 256, n / 256 % 256, n / 256 ^ 2 % 256, n / 256 ^ 3 % 256]

/-- `u64::to_le_bytes`. -/
def u64_to_le_bytes (n : Nat) : List Nat :=
  [n % 256, n / 256 % 256, n / 256 ^ 2 % 256, n / 256 ^ 3 % 256,
   n / 256 ^ 4 % 256, n / 256 ^ 5 % 256, n / 256 ^ 6 % 256, n / 256 ^ 7 % 256]

/-- `u32::from_le_bytes`. -/
def u32_from_le_bytes (b0 b1 b2 b3 : Nat) : Nat :=
  b0 + b1 * 256 + b2 * 256 ^ 2 + b3 * 256 ^ 3

/-- `u64::from_le_bytes`. -/
def u64_from_le_bytes (b0 b1 b2 b3 b4 b5 b6 b7 : Nat) : Nat :=
  b0 + b1 * 256 + b2 * 256 ^ 2 + b3 * 256 ^ 3 +
    b4 * 256 ^ 4 + b5 * 256 ^ 5 + b6 * 256 ^ 6 + b7 * 256 ^ 7

/-- `Commitment` of `src/src/tree/commitment.rs`.  Scalars are `Nat`
(bounded by the `u32`/`u64` ranges in the well-formedness hypotheses),
the three 32-byte hashes are byte lists of length 32. -/
structure Commitment where
  version : Nat
  commitment_index : Nat
  hash : List Nat
  random_secret : List Nat
  nullifier : List Nat
deriving DecidableEq, Repr

/-- `Commitment::to_bytes`: version, commitment_index little-endian, then
the three raw 32-byte fields. -/
def Commitment.to_bytes (c : Commitment) : List Nat :=
  u32_to_le_bytes c.version ++
    (u64_to_le_bytes c.commitment_index ++ (c.hash ++ (c.random_secret ++ c.nullifier)))

/-- `Commitment::from_bytes`: fails with `InvalidData` when fewer than 108
bytes are given (the Rust message also interpolates the sizes); trailing
bytes are ignored. -/
def Commitment.from_bytes (data : List Nat) : Except IndexerError Commitment :=
  if data.length < 108 then
    Except.error (IndexerError.InvalidData "insufficient data for commitment")
  else
    Except.ok
      { version := u32_from_le_bytes (data.getD 0 0) (data.getD 1 0) (data.getD 2 0)
          (data.getD 3 0)
        commitment_index := u64_from_le_bytes (data.getD 4 0) (data.getD 5 0)
          (data.getD 6 0) (data.getD 7 0) (data.getD 8 0) (data.getD 9 0)
          (data.getD 10 0) (data.getD 11 0)
        hash := (data.drop 12).take 32
        random_secret := (data.drop 44).take 32
        nullifier := (data.drop 76).take 32 }

/-! ## Sparse Merkle tree (`src/src/tree/sparse_merkle_tree.rs`)

Digests of the SMT path are the free algebra `SDigest`: `zero` is the
all-zero sentinel `zero_digest()`, `kv k v` is `smt_utils::hash_kv(k, v)`,
`br l r` is `smt_utils::hash_branch(l, r)`.  The Poseidon key digest
`get_digest(key)` is consumed only through its LSB-first bit sequence
`binary_key`; it is modelled by a bit function `B : String → Nat → Bool`
over which every statement quantifies. -/

inductive SDigest where
  | zero : SDigest
  | kv (k v : String) : SDigest
  | br (l r : SDigest) : SDigest
deriving DecidableEq, Repr

/-- `smt_utils::hash_kv`. -/
def hash_kv (k v : String) : SDigest := SDigest.kv k v

/-- `smt_utils::hash_branch`. -/
def hash_branch (l r : SDigest) : SDigest := SDigest.br l r

/-- `Node` of the SMT: `Empty`, `Leaf { key, value }`, or `Branch` with a
stored hash. -/
inductive SNode where
  | empty : SNode
  | leaf (key value : String) : SNode
  | branch (left right : SNode) (hash : SDigest) : SNode
deriving DecidableEq, Repr

/-- `Node::get_hash`: `zero_digest()` for `Empty`, `hash_kv` for a leaf,
the stored hash for a branch. -/
def SNode.get_hash : SNode → SDigest
  | SNode.empty => SDigest.zero
  | SNode.leaf k v => hash_kv k v
  | SNode.branch _ _ h => h

/-- `Branch::new_branch`: store `hash_branch` of the children's hashes. -/
def new_branch (l r : SNode) : SNode :=
  SNode.branch l r (hash_branch l.get_hash r.get_hash)

/-- The descent loop shared by `get` and `insert`: walk down while the
current node is a branch, at bit `B key h` going right when the bit is
set, recording the hash of the sibling that was not taken.  The Rust code
pushes the siblings top-down and reverses at the end; the list returned
here is directly in the reversed (deepest-first) order. -/
def descend (B : String → Nat → Bool) (key : String) : SNode → Nat → SNode × List SDigest
  | SNode.branch l r _, h =>
    if B key h then
      ((descend B key r (h + 1)).1, (descend B key r (h + 1)).2 ++ [l.get_hash])
    else
      ((descend B key l (h + 1)).1, (descend B key l (h + 1)).2 ++ [r.get_hash])
  | n, _ => (n, [])

/-- `SparseMerkleTreeProof`. -/
structure SparseMerkleTreeProof where
  sibling_hashes : List SDigest
deriving DecidableEq, Repr

/-- `SparseMerkleTree`: the root node, the cached root digest, and the
configured depth (`DEFAULT_TREE_DEPTH = 20` for `new()`). -/
structure SparseMerkleTree where
  root : SNode
  root_digest : SDigest
  depth : Nat
deriving DecidableEq, Repr

namespace SparseMerkleTree

/-- `SparseMerkleTree::with_depth`: empty root, its hash as root digest. -/
def with_depth (depth : Nat) : SparseMerkleTree :=
  { root := SNode.empty, root_digest := SNode.empty.get_hash, depth := depth }

/-- `SparseMerkleTree::commit`. -/
def commit (t : SparseMerkleTree) : SDigest := t.root_digest

/-- `AuthenticatedKV::get` for the SMT: descend by the key bits; at the
terminal node return the value when the leaf key matches.  The Rust code
panics when the descent ends on a branch; `descend` never stops on a
branch, so that arm returns `none` here. -/
def get (B : String → Nat → Bool) (t : SparseMerkleTree) (key : String) :
    Option String × SparseMerkleTreeProof :=
  match (descend B key t.root 0).1 with
  | SNode.empty => (none, ⟨(descend B key t.root 0).2⟩)
  | SNode.leaf k v =>
    if k ≠ key then (none, ⟨(descend B key t.root 0).2⟩)
    else (some v, ⟨(descend B key t.root 0).2⟩)
  | SNode.branch _ _ _ => (none, ⟨(descend B key t.root 0).2⟩)

end SparseMerkleTree

/-- The verification fold of `SparseMerkleTree::check_proof`: sibling
`idx` is combined using bit `binary_key[len - idx - 1]` of the key
digest. -/
def checkLoop (B : String → Nat → Bool) (key : String) (len : Nat) :
    Nat → SDigest → List SDigest → SDigest
  | _, acc, [] => acc
  | idx, acc, s :: rest =>
    checkLoop B key len (idx + 1)
      (if B key (len - idx - 1) then hash_branch s acc else hash_branch acc s) rest

/-- `SparseMerkleTree::check_proof`: recompute the leaf hash with
`hash_kv(key, value_or_default)` where the missing value defaults to the
empty string, fold the siblings, accept iff the result is the
commitment. -/
def SparseMerkleTree.check_proof (B : String → Nat → Bool) (key : String)
    (res : Option String) (pf : SparseMerkleTreeProof) (comm : SDigest) : Option Unit :=
  let root_hash :=
    checkLoop B key pf.sibling_hashes.length 0 (hash_kv key (res.getD "")) pf.sibling_hashes
  if root_hash = comm then some () else none

/-- The leaf-splitting loop of `insert` (the `while d == t` loop): while
the two key digests agree at the current height push an intermediate
branch with an empty sibling, failing (Rust: `panic!`, modelled `none`)
when `height + 1 >= depth` still inside the loop; at the first differing
bit place the two leaves as siblings in bit order.  The loop is modelled
with a structural fuel argument (`insertNode` passes `depth`, which
bounds the number of iterations: the depth guard fires before the fuel
can run out). -/
def splitLeaf (B : String → Nat → Bool) (depth : Nat) (kNew vNew kOld vOld : String) :
    Nat → Nat → Option SNode
  | fuel, h =>
    if B kNew h = B kOld h then
      if depth ≤ h + 1 then none
      else
        match fuel with
        | 0 => none
        | fuel1 + 1 =>
          match splitLeaf B depth kNew vNew kOld vOld fuel1 (h + 1) with
          | none => none
          | some sub =>
            some (if B kNew h then new_branch SNode.empty sub
              else new_branch sub SNode.empty)
    else
      some
        (if B kNew h then new_branch (SNode.leaf kOld vOld) (SNode.leaf kNew vNew)
         else new_branch (SNode.leaf kNew vNew) (SNode.leaf kOld vOld))

/-- `AuthenticatedKV::insert` on nodes: descend along the key bits
(collecting ancestors in the Rust code; here the rebuild is the
recursion), replace an empty slot or a leaf with the same key, split a
leaf with a different key, and rehash every ancestor branch on the way
up.  `none` models the `panic!` on a full-prefix key collision. -/
def insertNode (B : String → Nat → Bool) (depth : Nat) (key value : String) :
    SNode → Nat → Option SNode
  | SNode.branch l r _, h =>
    if B key h then
      match insertNode B depth key value r (h + 1) with
      | none => none
      | some r' => some (new_branch l r')
    else
      match insertNode B depth key value l (h + 1) with
      | none => none
      | some l' => some (new_branch l' r)
  | SNode.empty, _ => some (SNode.leaf key value)
  | SNode.leaf k' v', h =>
    if k' = key then some (SNode.leaf key value)
    else splitLeaf B depth key value k' v' depth h

/-- `AuthenticatedKV::insert` on trees: rebuild the root and refresh the
cached root digest (`update_serializable`). -/
def SparseMerkleTree.insert (B : String → Nat → Bool) (t : SparseMerkleTree)
    (key value : String) : Option SparseMerkleTree :=
  match insertNode B t.depth key value t.root 0 with
  | none => none
  | some root' => some { root := root', root_digest := root'.get_hash, depth := t.depth }

/-- Run a sequence of `insert` operations; `none` when any insert fails. -/
def applyInserts (B : String → Nat → Bool) :
    SparseMerkleTree → List (String × String) → Option SparseMerkleTree
  | t, [] => some t
  | t, (k, v) :: rest =>
    match t.insert B k v with
    | none => none
    | some t' => applyInserts B t' rest

/-- The most recently inserted value for a key in an operation sequence. -/
def lastVal (ops : List (String × String)) (k : String) : Option String :=
  (ops.reverse.find? (fun e => e.1 == k)).map (fun e => e.2)

/-- First-match association-list lookup (specification device). -/
def lookupKV : List (String × String) → String → Option String
  | [], _ => none
  | (k', v') :: rest, k => if k' = k then some v' else lookupKV rest k

/-- Apply an operation sequence to a map, later inserts overriding
earlier ones (specification device). -/
def opsApply : List (String × String) → (String → Option String) → String → Option String
  | [], m, k0 => m k0
  | (k, v) :: rest, m, k0 =>
    opsApply rest (fun k1 => if k1 = k then some v else m k1) k0

/-- The canonical-trie relation: `IsTrie B n h es` says the subtree `n`
rooted at height `h` is the path-compressed trie of the entry list `es`
(left-to-right leaf order).  Branch hashes are forced to be
`hash_branch` of the children (as `Branch::new_branch` builds them), a
branch holds at least two entries, and every entry hangs on the side
selected by bit `h` of its key digest. -/
inductive IsTrie (B : String → Nat → Bool) : SNode → Nat → List (String × String) → Prop
  | empty (h : Nat) : IsTrie B SNode.empty h []
  | leaf (k v : String) (h : Nat) : IsTrie B (SNode.leaf k v) h [(k, v)]
  | branch (l r : SNode) (esl esr : List (String × String)) (h : Nat) :
      IsTrie B l (h + 1) esl → IsTrie B r (h + 1) esr →
      (∀ e ∈ esl, B e.1 h = false) → (∀ e ∈ esr, B e.1 h = true) →
      2 ≤ esl.length + esr.length →
      IsTrie B (new_branch l r) h (esl ++ esr)

/-- Concrete key-digest bit assignment for witnesses: every key digest
is the all-zero bit string. -/
def allZeroBits : String → Nat → Bool := fun _ _ => false

/-- Concrete key-digest bit assignment exhibiting a prefix collision at
exactly the tree depth: the digests of "a" and "b" agree on bits 0 and 1
and first differ at bit 2, while "c" (and every other key) differs from
both at bit 1. -/
def collideBits : String → Nat → Bool := fun k i =>
  if k = "a" then i == 1 else if k = "b" then (i == 1 || i == 2) else false

/-- Concrete key-digest bit assignment separating keys at bit 0. -/
def oneBit : String → Nat → Bool := fun k i => k == "1" && i == 0

/-! ## Lemmas: arithmetic and list helpers -/

theorem xor_one_of_even {n : Nat} (h : n % 2 = 0) : n ^^^ 1 = n + 1 := by
  have h1 : Nat.bit false (n / 2) = n := by simp [Nat.bit_val]; omega
  have h2 : Nat.bit true 0 = 1 := by simp [Nat.bit_val]
  calc n ^^^ 1 = Nat.bit false (n / 2) ^^^ Nat.bit true 0 := by rw [h1, h2]
    _ = Nat.bit (bne false true) (n / 2 ^^^ 0) := Nat.xor_bit false (n / 2) true 0
    _ = n + 1 := by simp [Nat.bit_val]; omega

theorem xor_one_of_odd {n : Nat} (h : n % 2 = 1) : n ^^^ 1 = n - 1 := by
  have h1 : Nat.bit true (n / 2) = n := by simp [Nat.bit_val]; omega
  have h2 : Nat.bit true 0 = 1 := by simp [Nat.bit_val]
  calc n ^^^ 1 = Nat.bit true (n / 2) ^^^ Nat.bit true 0 := by rw [h1, h2]
    _ = Nat.bit (bne true true) (n / 2 ^^^ 0) := Nat.xor_bit true (n / 2) true 0
    _ = n - 1 := by simp [Nat.bit_val]; omega

theorem pairUp_length (zl : HashT) : ∀ ns : List HashT,
    (pairUp zl ns).length = (ns.length + 1) / 2
  | [] => by simp [pairUp]
  | [x] => by simp [pairUp]
  | x :: y :: rest => by
    simp [pairUp, pairUp_length zl rest]
    omega

theorem pairUp_getD (zl : HashT) : ∀ (ns : List HashT) (i : Nat), 2 * i < ns.length →
    (pairUp zl ns).getD i default =
      hash_pair (ns.getD (2 * i) default)
        (if 2 * i + 1 < ns.length then ns.getD (2 * i + 1) default else zl)
  | [], i, h => by simp at h
  | [x], i, h => by
    have hi : i = 0 := by simp at h; omega
    subst hi
    simp [pairUp]
  | x :: y :: rest, 0, h => by simp [pairUp]
  | x :: y :: rest, i + 1, h => by
    have ih := pairUp_getD zl rest i (by simp at h ⊢; omega)
    have e1 : 2 * (i + 1) = 2 * i + 1 + 1 := by omega
    rw [e1]
    simp only [pairUp, List.getD_cons_succ, List.length_cons]
    rw [ih]
    by_cases hc : 2 * i + 1 < rest.length
    · rw [if_pos hc, if_pos (by omega)]
    · rw [if_neg hc, if_neg (by omega)]

theorem reduceFrom_pos (z : Nat → HashT) : ∀ (fuel lvl : Nat) (ns : List HashT),
    0 < ns.length → 0 < (reduceFrom z fuel lvl ns).length
  | 0, _, ns, h => h
  | fuel + 1, lvl, ns, h => by
    have : 0 < (pairUp (z lvl) ns).length := by rw [pairUp_length]; omega
    exact reduceFrom_pos z fuel (lvl + 1) (pairUp (z lvl) ns) this

theorem reduceFrom_nil (z : Nat → HashT) : ∀ (fuel lvl : Nat),
    reduceFrom z fuel lvl [] = []
  | 0, _ => rfl
  | fuel + 1, lvl => by
    show reduceFrom z fuel (lvl + 1) (pairUp (z lvl) []) = []
    rw [show pairUp (z lvl) [] = [] from rfl]
    exact reduceFrom_nil z fuel (lvl + 1)

theorem reduceFrom_congr {z1 z2 : Nat → HashT} : ∀ (fuel lvl : Nat) (ns : List HashT),
    (∀ l, lvl ≤ l → l < lvl + fuel → z1 l = z2 l) →
    reduceFrom z1 fuel lvl ns = reduceFrom z2 fuel lvl ns
  | 0, _, _, _ => rfl
  | fuel + 1, lvl, ns, h => by
    show reduceFrom z1 fuel (lvl + 1) (pairUp (z1 lvl) ns) = _
    rw [h lvl (by omega) (by omega)]
    exact reduceFrom_congr fuel (lvl + 1) (pairUp (z2 lvl) ns)
      (fun l hl hl2 => h l (by omega) (by omega))

theorem proveSibs_length (z : Nat → HashT) : ∀ (fuel lvl idx : Nat) (ns : List HashT),
    (proveSibs z fuel lvl idx ns).length = fuel
  | 0, _, _, _ => rfl
  | fuel + 1, lvl, idx, ns => by
    simp only [proveSibs, List.length_cons]
    rw [proveSibs_length z fuel (lvl + 1) (idx / 2) (pairUp (z lvl) ns)]

theorem headD_eq_getD (l : List HashT) (d : HashT) (h : l ≠ []) :
    l.headD d = l.getD 0 d := by
  cases l with
  | nil => exact absurd rfl h
  | cons x xs => rfl

theorem verifyLoop_proveSibs (z : Nat → HashT) : ∀ (fuel lvl idx : Nat) (ns : List HashT),
    idx < ns.length →
    verifyLoop (ns.getD idx default) idx (proveSibs z fuel lvl idx ns) =
        (reduceFrom z fuel lvl ns).getD (idx / 2 ^ fuel) default ∧
      idx / 2 ^ fuel < (reduceFrom z fuel lvl ns).length
  | 0, lvl, idx, ns, h => by
    simp [proveSibs, verifyLoop, reduceFrom]
    exact h
  | fuel + 1, lvl, idx, ns, h => by
    have hlen : (pairUp (z lvl) ns).length = (ns.length + 1) / 2 := pairUp_length _ _
    have hidx2 : idx / 2 < (pairUp (z lvl) ns).length := by omega
    -- parent equality
    have hparent : (if idx % 2 = 0
          then hash_pair (ns.getD idx default)
            (if (idx ^^^ 1) < ns.length then ns.getD (idx ^^^ 1) default else z lvl)
          else hash_pair
            (if (idx ^^^ 1) < ns.length then ns.getD (idx ^^^ 1) default else z lvl)
            (ns.getD idx default)) = (pairUp (z lvl) ns).getD (idx / 2) default := by
      rcases Nat.even_or_odd idx with he | ho
      · have hm : idx % 2 = 0 := Nat.even_iff.mp he
        have hx : idx ^^^ 1 = idx + 1 := xor_one_of_even hm
        have h2 : 2 * (idx / 2) = idx := by omega
        rw [if_pos hm, hx]
        rw [pairUp_getD (z lvl) ns (idx / 2) (by omega), h2]
      · have hm : idx % 2 = 1 := Nat.odd_iff.mp ho
        have hx : idx ^^^ 1 = idx - 1 := xor_one_of_odd hm
        have h2 : 2 * (idx / 2) = idx - 1 := by omega
        have h3 : idx - 1 < ns.length := by omega
        rw [if_neg (by omega), hx, if_pos h3]
        rw [pairUp_getD (z lvl) ns (idx / 2) (by omega), h2]
        rw [show idx - 1 + 1 = idx from by omega]
        rw [if_pos h]
    have ih := verifyLoop_proveSibs z fuel (lvl + 1) (idx / 2) (pairUp (z lvl) ns) hidx2
    constructor
    · show verifyLoop (ns.getD idx default) idx
        ((if (idx ^^^ 1) < ns.length then ns.getD (idx ^^^ 1) default else z lvl)
          :: proveSibs z fuel (lvl + 1) (idx / 2) (pairUp (z lvl) ns)) = _
      show verifyLoop (if idx % 2 = 0 then _ else _) (idx / 2) _ = _
      rw [hparent]
      rw [ih.1]
      congr 1
      rw [Nat.div_div_eq_div_mul]
      congr 1
      rw [Nat.pow_succ]
      omega
    · have : idx / 2 / 2 ^ fuel = idx / 2 ^ (fuel + 1) := by
        rw [Nat.div_div_eq_div_mul, Nat.pow_succ]
        congr 1
        omega
      rw [← this]
      exact ih.2

theorem getD_irrel {l : List HashT} {i : Nat} (h : i < l.length) (d1 d2 : HashT) :
    l.getD i d1 = l.getD i d2 := by
  rw [List.getD_eq_getElem l d1 h, List.getD_eq_getElem l d2 h]

theorem frontierLoop_length (z : Nat → HashT) (lv : List HashT) :
    ∀ (fuel lvl pos : Nat) (cur : HashT) (fr : List HashT),
    (frontierLoop z lv fuel lvl pos cur fr).length = fr.length
  | 0, _, _, _, _ => rfl
  | fuel + 1, lvl, pos, cur, fr => by
    by_cases h : pos % 2 = 0 <;>
      simp only [frontierLoop, h, if_true, if_false, reduceCtorEq, ite_true, ite_false] <;>
      rw [frontierLoop_length z lv fuel] <;>
      simp

theorem compute_zero_hashes_getD {l d : Nat} (h : l ≤ d) :
    (compute_zero_hashes d).getD l default = zeroHash l := by
  unfold compute_zero_hashes
  rw [List.getD_eq_getElem?_getD]
  rw [List.getElem?_map]
  rw [List.getElem?_range (by omega)]
  rfl

theorem compute_zero_hashes_length (d : Nat) :
    (compute_zero_hashes d).length = d + 1 := by
  simp [compute_zero_hashes]

/-- Structural invariant of reachable IMTs. -/
theorem reachable_inv {t : IncrementalMerkleTree} (ht : Reachable t) :
    t.capacity = 2 ^ t.depth ∧ t.zero_hashes = compute_zero_hashes t.depth ∧
      t.frontier.length = t.depth + 1 ∧ t.leaves.length ≤ t.capacity ∧
      1 ≤ t.depth ∧ t.depth ≤ 63 := by
  induction ht with
  | base d h1 h2 =>
    refine ⟨rfl, rfl, ?_, ?_, h1, h2⟩
    · simp [IncrementalMerkleTree.with_depth]
    · simp [IncrementalMerkleTree.with_depth]
  | append_ok t t' data i h hstep ih =>
    obtain ⟨i1, i2, i3, i4, i5, i6⟩ := ih
    unfold IncrementalMerkleTree.append at hstep
    by_cases hfull : t.capacity ≤ t.leaves.length
    · rw [if_pos hfull] at hstep
      exact absurd (congrArg Prod.fst hstep) (by simp)
    · rw [if_neg hfull] at hstep
      have ht' := congrArg Prod.snd hstep
      simp only at ht'
      subst ht'
      refine ⟨i1, i2, ?_, ?_, i5, i6⟩
      · simp only [frontierLoop_length]
        exact i3
      · simp only [List.length_append, List.length_cons, List.length_nil]
        omega
  | update_ok t t' i data h hstep ih =>
    obtain ⟨i1, i2, i3, i4, i5, i6⟩ := ih
    unfold IncrementalMerkleTree.update at hstep
    by_cases hoob : t.leaves.length ≤ i
    · rw [if_pos hoob] at hstep
      exact absurd (congrArg Prod.fst hstep) (by simp)
    · rw [if_neg hoob] at hstep
      have ht' := congrArg Prod.snd hstep
      simp only at ht'
      subst ht'
      refine ⟨i1, i2, i3, ?_, i5, i6⟩
      simp only [List.length_set]
      exact i4

theorem root_eq_getD {t : IncrementalMerkleTree} (h : 0 < t.leaves.length) :
    t.root = (reduceFrom t.zf t.depth 0 t.leaves).getD 0 default := by
  unfold IncrementalMerkleTree.root
  rw [if_neg (by simp [List.isEmpty_iff]; intro he; rw [he] at h; simp at h)]
  have hne : reduceFrom t.zf t.depth 0 t.leaves ≠ [] := by
    have := reduceFrom_pos t.zf t.depth 0 t.leaves h
    intro hnil
    rw [hnil] at this
    simp at this
  rw [headD_eq_getD _ _ hne]
  exact getD_irrel (reduceFrom_pos t.zf t.depth 0 t.leaves h) _ _

/-- Claim C1: for every IMT built by successful `append`/`update` operations and
every leaf index `i < len`, `prove i` succeeds with exactly `depth`
siblings and the proof verifies against `root`. -/
theorem imt_prove_verifies (t : IncrementalMerkleTree) (ht : Reachable t) (i : Nat)
    (hi : i < t.leaves.length) :
    ∃ p, t.prove i = Except.ok p ∧ p.siblings.length = t.depth ∧
      p.verify t.root = true := by
  obtain ⟨hcap, hzh, hfr, hlen, hd1, hd2⟩ := reachable_inv ht
  have hp : t.prove i = Except.ok
      ⟨i, t.leaves.getD i default, proveSibs t.zf t.depth 0 i t.leaves⟩ := by
    unfold IncrementalMerkleTree.prove
    rw [if_neg (by omega)]
  refine ⟨_, hp, ?_, ?_⟩
  · exact proveSibs_length t.zf t.depth 0 i t.leaves
  · unfold MerkleProof.verify MerkleProof.verify_proof
    simp only [decide_eq_true_eq]
    have main := verifyLoop_proveSibs t.zf t.depth 0 i t.leaves hi
    rw [main.1]
    have hzero : i / 2 ^ t.depth = 0 := by
      apply Nat.div_eq_of_lt
      omega
    rw [hzero]
    rw [root_eq_getD (by omega)]

theorem zNodeHash_step (lvl : Nat) (ns : List HashT) : ∀ (l i : Nat),
    zNodeHash lvl ns (l + 1) i = zNodeHash (lvl + 1) (pairUp (zeroHash lvl) ns) l i
  | 0, i => by
    show hash_pair (zNodeHash lvl ns 0 (2 * i)) (zNodeHash lvl ns 0 (2 * i + 1)) = _
    unfold zNodeHash
    have hlen : (pairUp (zeroHash lvl) ns).length = (ns.length + 1) / 2 :=
      pairUp_length _ _
    by_cases hc : 2 * i < ns.length
    · have hip : i < (pairUp (zeroHash lvl) ns).length := by omega
      rw [if_pos hip]
      rw [pairUp_getD (zeroHash lvl) ns i hc]
      rw [if_pos hc]
    · have hip : ¬ i < (pairUp (zeroHash lvl) ns).length := by omega
      have hc2 : ¬ 2 * i + 1 < ns.length := by omega
      rw [if_neg hip, if_neg hc, if_neg hc2]
      rfl
  | l + 1, i => by
    show hash_pair (zNodeHash lvl ns (l + 1) (2 * i)) (zNodeHash lvl ns (l + 1) (2 * i + 1)) = _
    rw [zNodeHash_step lvl ns l (2 * i), zNodeHash_step lvl ns l (2 * i + 1)]
    rfl

theorem zNodeHash_reduce : ∀ (fuel lvl : Nat) (ns : List HashT) (i : Nat),
    zNodeHash lvl ns fuel i =
      (if i < (reduceFrom zeroHash fuel lvl ns).length
        then (reduceFrom zeroHash fuel lvl ns).getD i default
        else zeroHash (lvl + fuel))
  | 0, lvl, ns, i => by
    show (if i < ns.length then ns.getD i default else zeroHash lvl) = _
    rfl
  | fuel + 1, lvl, ns, i => by
    rw [zNodeHash_step lvl ns fuel i]
    rw [zNodeHash_reduce fuel (lvl + 1) (pairUp (zeroHash lvl) ns) i]
    rw [show lvl + 1 + fuel = lvl + (fuel + 1) from by omega]
    rfl

theorem nodeHash_eq_zNodeHash (ns : List HashT) : ∀ (l i : Nat),
    nodeHash ns l i = zNodeHash 0 ns l i
  | 0, i => rfl
  | l + 1, i => by
    show hash_pair (nodeHash ns l (2 * i)) (nodeHash ns l (2 * i + 1)) = _
    rw [nodeHash_eq_zNodeHash ns l (2 * i), nodeHash_eq_zNodeHash ns l (2 * i + 1)]
    rfl

/-- Claim C2: for every reachable IMT, `root` equals the reference
`node_hash(depth, 0)` of Invariant (I-IMT-1); in particular the empty
tree has root `zero_hashes[depth]`, and the zero hashes obey
`zero_hashes[0] = H(0x00)`, `zero_hashes[l+1] = H(z_l ‖ z_l)`. -/
theorem imt_root_eq_nodeHash (t : IncrementalMerkleTree) (ht : Reachable t) :
    t.root = nodeHash t.leaves t.depth 0 ∧
      (t.leaves = [] → t.root = zeroHash t.depth) ∧
      zeroHash 0 = hash_bytes [0] ∧
      (∀ l, zeroHash (l + 1) = hash_pair (zeroHash l) (zeroHash l)) := by
  obtain ⟨hcap, hzh, hfr, hlen, hd1, hd2⟩ := reachable_inv ht
  have hzf : ∀ l, l ≤ t.depth → t.zf l = zeroHash l := by
    intro l hl
    unfold IncrementalMerkleTree.zf
    rw [hzh]
    exact compute_zero_hashes_getD hl
  refine ⟨?_, ?_, rfl, fun l => rfl⟩
  · rcases Nat.eq_zero_or_pos t.leaves.length with hz | hpos
    · have hnil : t.leaves = [] := List.length_eq_zero.mp hz
      unfold IncrementalMerkleTree.root
      rw [if_pos (by simp [hnil])]
      rw [hzf t.depth (le_refl _)]
      rw [nodeHash_eq_zNodeHash, zNodeHash_reduce]
      rw [hnil, reduceFrom_nil]
      simp
    · rw [root_eq_getD hpos]
      rw [nodeHash_eq_zNodeHash, zNodeHash_reduce]
      have hcongr : reduceFrom t.zf t.depth 0 t.leaves =
          reduceFrom zeroHash t.depth 0 t.leaves := by
        apply reduceFrom_congr
        intro l hl hl2
        exact hzf l (by omega)
      rw [hcongr]
      rw [if_pos (reduceFrom_pos zeroHash t.depth 0 t.leaves hpos)]
  · intro hnil
    unfold IncrementalMerkleTree.root
    rw [if_pos (by simp [hnil])]
    exact hzf t.depth (le_refl _)

theorem frontierLoop_single (z : Nat → HashT) (x : HashT) :
    ∀ (d lvl : Nat) (cur : HashT) (fr : List HashT), lvl + d + 1 < fr.length →
    (frontierLoop z [x] (d + 1) lvl 0 cur fr).getD (lvl + d + 1) default =
      chainZ z lvl cur (d + 1)
  | 0, lvl, cur, fr, h => by
    show (frontierLoop z [x] 0 (lvl + 1) 0 (hash_pair cur (z lvl))
        (fr.set (lvl + 1) (hash_pair cur (z lvl)))).getD (lvl + 0 + 1) default = _
    show (fr.set (lvl + 1) (hash_pair cur (z lvl))).getD (lvl + 0 + 1) default = _
    rw [show lvl + 0 + 1 = lvl + 1 from by omega]
    rw [List.getD_eq_getElem _ _ (by simp; omega), List.getElem_set_self]
    rfl
  | d + 1, lvl, cur, fr, h => by
    show (frontierLoop z [x] (d + 1) (lvl + 1) 0 (hash_pair cur (z lvl))
        (fr.set (lvl + 1) (hash_pair cur (z lvl)))).getD (lvl + (d + 1) + 1) default = _
    have ih := frontierLoop_single z x d (lvl + 1) (hash_pair cur (z lvl))
      (fr.set (lvl + 1) (hash_pair cur (z lvl))) (by simp; omega)
    rw [show lvl + (d + 1) + 1 = lvl + 1 + d + 1 from by omega]
    exact ih

theorem reduceFrom_single (z : Nat → HashT) : ∀ (d lvl : Nat) (x : HashT),
    reduceFrom z d lvl [x] = [chainZ z lvl x d]
  | 0, _, _ => rfl
  | d + 1, lvl, x => by
    show reduceFrom z d (lvl + 1) (pairUp (z lvl) [x]) = _
    rw [show pairUp (z lvl) [x] = [hash_pair x (z lvl)] from rfl]
    exact reduceFrom_single z d (lvl + 1) (hash_pair x (z lvl))

/-- Claim C7, amended: `frontier[depth] == root` does hold right after an
`append` into an *empty* tree. -/
theorem imt_frontier_after_first_append (t : IncrementalMerkleTree) (ht : Reachable t)
    (hempty : t.leaves = []) (data : List Nat) :
    (t.append data).1 = Except.ok 0 ∧
      ((t.append data).2).frontier.getD ((t.append data).2).depth default =
        ((t.append data).2).root := by
  obtain ⟨hcap, hzh, hfr, hlen, hd1, hd2⟩ := reachable_inv ht
  have hlen0 : t.leaves.length = 0 := by rw [hempty]; rfl
  have hnotfull : ¬ t.capacity ≤ t.leaves.length := by
    have : 0 < 2 ^ t.depth := Nat.pos_pow_of_pos _ (by omega)
    omega
  have happ : t.append data = (Except.ok 0,
      IncrementalMerkleTree.mk [hash_bytes data] t.depth t.capacity t.zero_hashes
        (frontierLoop t.zf [hash_bytes data] t.depth 0 0 (hash_bytes data) t.frontier)) := by
    unfold IncrementalMerkleTree.append
    rw [if_neg hnotfull]
    rw [hempty]
    simp only [List.nil_append, List.length_nil]
  rw [happ]
  refine ⟨rfl, ?_⟩
  simp only
  have hroot : (IncrementalMerkleTree.mk [hash_bytes data] t.depth t.capacity t.zero_hashes
      (frontierLoop t.zf [hash_bytes data] t.depth 0 0 (hash_bytes data) t.frontier)).root =
      chainZ t.zf 0 (hash_bytes data) t.depth := by
    unfold IncrementalMerkleTree.root
    rw [if_neg (by simp)]
    have hzfeq : (IncrementalMerkleTree.mk [hash_bytes data] t.depth t.capacity
        t.zero_hashes (frontierLoop t.zf [hash_bytes data] t.depth 0 0 (hash_bytes data)
          t.frontier)).zf = t.zf := rfl
    rw [hzfeq]
    simp only
    rw [reduceFrom_single t.zf t.depth 0 (hash_bytes data)]
    rfl
  rw [hroot]
  obtain ⟨d0, hd0⟩ : ∃ d0, t.depth = d0 + 1 := ⟨t.depth - 1, by omega⟩
  rw [hd0]
  have hfin := frontierLoop_single t.zf (hash_bytes data) d0 0 (hash_bytes data)
    t.frontier (by omega)
  simpa using hfin

/-- Claim C8: `append` fails with `TreeFull` iff `len == capacity`; `update`
fails with `IndexOutOfBounds` iff `index ≥ len`; `prove` fails with
`LeafNotAppended` iff `leaf_index ≥ len`; on failure the tree state is
unchanged. -/
theorem imt_error_conditions (t : IncrementalMerkleTree) (ht : Reachable t)
    (data : List Nat) (i j : Nat) :
    ((t.append data).1 = Except.error IndexerError.TreeFull ↔
        t.leaves.length = t.capacity) ∧
      ((t.append data).1 = Except.error IndexerError.TreeFull → (t.append data).2 = t) ∧
      ((t.update i data).1 = Except.error IndexerError.IndexOutOfBounds ↔
        t.leaves.length ≤ i) ∧
      ((t.update i data).1 = Except.error IndexerError.IndexOutOfBounds →
        (t.update i data).2 = t) ∧
      (t.prove j = Except.error IndexerError.LeafNotAppended ↔ t.leaves.length ≤ j) := by
  obtain ⟨hcap, hzh, hfr, hlen, hd1, hd2⟩ := reachable_inv ht
  refine ⟨?_, ?_, ?_, ?_, ?_⟩
  · unfold IncrementalMerkleTree.append
    by_cases hfull : t.capacity ≤ t.leaves.length
    · rw [if_pos hfull]
      simp only [true_iff]
      omega
    · rw [if_neg hfull]
      simp only [reduceCtorEq, false_iff]
      omega
  · unfold IncrementalMerkleTree.append
    by_cases hfull : t.capacity ≤ t.leaves.length
    · rw [if_pos hfull]
      intro
      rfl
    · rw [if_neg hfull]
      simp only [reduceCtorEq, IsEmpty.forall_iff]
  · unfold IncrementalMerkleTree.update
    by_cases hoob : t.leaves.length ≤ i
    · rw [if_pos hoob]
      simp only [true_iff]
      exact hoob
    · rw [if_neg hoob]
      simp only [reduceCtorEq, false_iff]
      omega
  · unfold IncrementalMerkleTree.update
    by_cases hoob : t.leaves.length ≤ i
    · rw [if_pos hoob]
      intro
      rfl
    · rw [if_neg hoob]
      simp only [reduceCtorEq, IsEmpty.forall_iff]
  · unfold IncrementalMerkleTree.prove
    by_cases hoob : t.leaves.length ≤ j
    · rw [if_pos hoob]
      simp only [true_iff]
      exact hoob
    · rw [if_neg hoob]
      simp only [reduceCtorEq, false_iff]
      omega

/-- Claim C10: `update i b` on a valid index succeeds, replaces `leaves[i]` by
`hash_bytes b`, and leaves the length, all other leaves, and the
`depth`/`capacity`/`zero_hashes`/`frontier` fields unchanged. -/
theorem imt_update_frame (t : IncrementalMerkleTree) (i : Nat) (data : List Nat)
    (hi : i < t.leaves.length) :
    (t.update i data).1 = Except.ok () ∧
      ((t.update i data).2).leaves = t.leaves.set i (hash_bytes data) ∧
      ((t.update i data).2).leaves.length = t.leaves.length ∧
      ((t.update i data).2).leaves.getD i default = hash_bytes data ∧
      (∀ j, j ≠ i → ((t.update i data).2).leaves.getD j default =
        t.leaves.getD j default) ∧
      ((t.update i data).2).depth = t.depth ∧
      ((t.update i data).2).capacity = t.capacity ∧
      ((t.update i data).2).zero_hashes = t.zero_hashes ∧
      ((t.update i data).2).frontier = t.frontier := by
  unfold IncrementalMerkleTree.update
  rw [if_neg (by omega)]
  refine ⟨rfl, rfl, by simp, ?_, ?_, rfl, rfl, rfl, rfl⟩
  · simp only
    rw [List.getD_eq_getElem _ _ (by simp; omega), List.getElem_set_self]
  · intro j hj
    simp only
    by_cases hjlen : j < t.leaves.length
    · rw [List.getD_eq_getElem _ _ (by simp; omega), List.getD_eq_getElem _ _ hjlen,
        List.getElem_set]
      rw [if_neg (by omega)]
    · rw [List.getD_eq_getElem?_getD, List.getD_eq_getElem?_getD]
      rw [List.getElem?_eq_none (by simp; omega), List.getElem?_eq_none (by omega)]

/-- Claim C9: decoding the canonical 108-byte encoding returns the commitment
exactly, for every commitment within the `u32`/`u64` ranges with 32-byte
hash fields. -/
theorem commitment_roundtrip (c : Commitment) (h1 : c.version < 2 ^ 32)
    (h2 : c.commitment_index < 2 ^ 64) (h3 : c.hash.length = 32)
    (h4 : c.random_secret.length = 32) (h5 : c.nullifier.length = 32) :
    Commitment.from_bytes c.to_bytes = Except.ok c := by
  obtain ⟨v, ci, ha, rs, nf⟩ := c
  simp only at h1 h2 h3 h4 h5
  have hlen : (Commitment.mk v ci ha rs nf).to_bytes.length = 108 := by
    simp [Commitment.to_bytes, u32_to_le_bytes, u64_to_le_bytes, h3, h4, h5]
  unfold Commitment.from_bytes
  rw [if_neg (by omega)]
  simp only [Commitment.to_bytes, u32_to_le_bytes, u64_to_le_bytes, List.cons_append,
    List.nil_append, Except.ok.injEq, Commitment.mk.injEq]
  have e2 : (256 : Nat) ^ 2 = 65536 := by norm_num
  have e3 : (256 : Nat) ^ 3 = 16777216 := by norm_num
  have e4 : (256 : Nat) ^ 4 = 4294967296 := by norm_num
  have e5 : (256 : Nat) ^ 5 = 1099511627776 := by norm_num
  have e6 : (256 : Nat) ^ 6 = 281474976710656 := by norm_num
  have e7 : (256 : Nat) ^ 7 = 72057594037927936 := by norm_num
  refine ⟨?_, ?_, ?_, ?_, ?_⟩
  · simp only [List.getD_cons_zero, List.getD_cons_succ, u32_from_le_bytes, e2, e3]
    omega
  · simp [u64_from_le_bytes, e2, e3, e4, e5, e6, e7]
    omega
  · simp only [List.drop_succ_cons, List.drop_zero]
    rw [List.take_left' h3]
  · simp only [List.drop_succ_cons, List.drop_zero]
    rw [List.drop_left' h3, List.take_left' h4]
  · simp only [List.drop_succ_cons, List.drop_zero]
    rw [show (64 : Nat) = 32 + 32 from rfl, ← List.drop_drop]
    rw [List.drop_left' h3, List.drop_left' h4, ← h5, List.take_length]

/-- Claim C7, counterexample: depth-1 tree, append two leaves; afterwards
`frontier[depth]` differs from `root()` (the append loop never updates
`frontier[0]`, so the left sibling used at level 0 is the zero hash
instead of the first leaf). -/
theorem imt_frontier_counterexample :
    ¬ ((((IncrementalMerkleTree.with_depth 1).append [97]).2.append [98]).2.frontier.getD
        ((((IncrementalMerkleTree.with_depth 1).append [97]).2.append [98]).2.depth) default =
      (((IncrementalMerkleTree.with_depth 1).append [97]).2.append [98]).2.root) := by
  decide

theorem imt_prove_verifies_witness :
    0 < (((IncrementalMerkleTree.with_depth 2).append [1]).2).leaves.length ∧
      ∃ p, (((IncrementalMerkleTree.with_depth 2).append [1]).2).prove 0 = Except.ok p ∧
        p.siblings.length = (((IncrementalMerkleTree.with_depth 2).append [1]).2).depth ∧
        p.verify ((((IncrementalMerkleTree.with_depth 2).append [1]).2).root) = true :=
  ⟨by decide,
    imt_prove_verifies (((IncrementalMerkleTree.with_depth 2).append [1]).2)
      (Reachable.append_ok (IncrementalMerkleTree.with_depth 2) _ [1] 0
        (Reachable.base 2 (by decide) (by decide)) (by decide))
      0 (by decide)⟩

theorem imt_root_eq_nodeHash_witness :
    (IncrementalMerkleTree.with_depth 1).root =
        nodeHash (IncrementalMerkleTree.with_depth 1).leaves
          (IncrementalMerkleTree.with_depth 1).depth 0 ∧
      ((IncrementalMerkleTree.with_depth 1).leaves = [] →
        (IncrementalMerkleTree.with_depth 1).root =
          zeroHash (IncrementalMerkleTree.with_depth 1).depth) ∧
      zeroHash 0 = hash_bytes [0] ∧
      (∀ l, zeroHash (l + 1) = hash_pair (zeroHash l) (zeroHash l)) :=
  imt_root_eq_nodeHash (IncrementalMerkleTree.with_depth 1)
    (Reachable.base 1 (by decide) (by decide))

theorem imt_frontier_after_first_append_witness :
    ((IncrementalMerkleTree.with_depth 3).append [7]).1 = Except.ok 0 ∧
      (((IncrementalMerkleTree.with_depth 3).append [7]).2).frontier.getD
          ((((IncrementalMerkleTree.with_depth 3).append [7]).2).depth) default =
        (((IncrementalMerkleTree.with_depth 3).append [7]).2).root :=
  imt_frontier_after_first_append (IncrementalMerkleTree.with_depth 3)
    (Reachable.base 3 (by decide) (by decide)) (by decide) [7]

theorem imt_error_conditions_witness :
    (((IncrementalMerkleTree.with_depth 1).append [5]).1 =
          Except.error IndexerError.TreeFull ↔
        (IncrementalMerkleTree.with_depth 1).leaves.length =
          (IncrementalMerkleTree.with_depth 1).capacity) ∧
      (((IncrementalMerkleTree.with_depth 1).append [5]).1 =
          Except.error IndexerError.TreeFull →
        ((IncrementalMerkleTree.with_depth 1).append [5]).2 =
          IncrementalMerkleTree.with_depth 1) ∧
      (((IncrementalMerkleTree.with_depth 1).update 2 [5]).1 =
          Except.error IndexerError.IndexOutOfBounds ↔
        (IncrementalMerkleTree.with_depth 1).leaves.length ≤ 2) ∧
      (((IncrementalMerkleTree.with_depth 1).update 2 [5]).1 =
          Except.error IndexerError.IndexOutOfBounds →
        ((IncrementalMerkleTree.with_depth 1).update 2 [5]).2 =
          IncrementalMerkleTree.with_depth 1) ∧
      ((IncrementalMerkleTree.with_depth 1).prove 3 =
          Except.error IndexerError.LeafNotAppended ↔
        (IncrementalMerkleTree.with_depth 1).leaves.length ≤ 3) :=
  imt_error_conditions (IncrementalMerkleTree.with_depth 1)
    (Reachable.base 1 (by decide) (by decide)) [5] 2 3

theorem imt_update_frame_witness :
    ((((IncrementalMerkleTree.with_depth 2).append [4]).2).update 0 [9]).1 =
        Except.ok () ∧
      (((((IncrementalMerkleTree.with_depth 2).append [4]).2).update 0 [9]).2).leaves =
        ((((IncrementalMerkleTree.with_depth 2).append [4]).2).leaves.set 0
          (hash_bytes [9])) ∧
      (((((IncrementalMerkleTree.with_depth 2).append [4]).2).update 0 [9]).2).leaves.length =
        (((IncrementalMerkleTree.with_depth 2).append [4]).2).leaves.length ∧
      (((((IncrementalMerkleTree.with_depth 2).append [4]).2).update 0 [9]).2).leaves.getD 0
          default = hash_bytes [9] ∧
      (∀ j, j ≠ 0 →
        (((((IncrementalMerkleTree.with_depth 2).append [4]).2).update 0 [9]).2).leaves.getD j
            default =
          (((IncrementalMerkleTree.with_depth 2).append [4]).2).leaves.getD j default) ∧
      (((((IncrementalMerkleTree.with_depth 2).append [4]).2).update 0 [9]).2).depth =
        (((IncrementalMerkleTree.with_depth 2).append [4]).2).depth ∧
      (((((IncrementalMerkleTree.with_depth 2).append [4]).2).update 0 [9]).2).capacity =
        (((IncrementalMerkleTree.with_depth 2).append [4]).2).capacity ∧
      (((((IncrementalMerkleTree.with_depth 2).append [4]).2).update 0 [9]).2).zero_hashes =
        (((IncrementalMerkleTree.with_depth 2).append [4]).2).zero_hashes ∧
      (((((IncrementalMerkleTree.with_depth 2).append [4]).2).update 0 [9]).2).frontier =
        (((IncrementalMerkleTree.with_depth 2).append [4]).2).frontier :=
  imt_update_frame (((IncrementalMerkleTree.with_depth 2).append [4]).2) 0 [9] (by decide)

theorem commitment_roundtrip_witness :
    Commitment.from_bytes
        (Commitment.mk 5 77 (List.replicate 32 1) (List.replicate 32 2)
          (List.replicate 32 3)).to_bytes =
      Except.ok
        (Commitment.mk 5 77 (List.replicate 32 1) (List.replicate 32 2)
          (List.replicate 32 3)) :=
  commitment_roundtrip
    (Commitment.mk 5 77 (List.replicate 32 1) (List.replicate 32 2) (List.replicate 32 3))
    (by decide) (by decide) (by decide) (by decide) (by decide)

/-! ## Lemmas: sparse Merkle tree -/

theorem lookupKV_append (a b : List (String × String)) (k : String) :
    lookupKV (a ++ b) k =
      (match lookupKV a k with
        | some v => some v
        | none => lookupKV b k) := by
  induction a with
  | nil => rfl
  | cons e rest ih =>
    obtain ⟨k', v'⟩ := e
    by_cases hk : k' = k
    · simp [lookupKV, hk]
    · simp only [List.cons_append, lookupKV, if_neg hk]
      exact ih

theorem lookupKV_eq_none_of_all_ne {es : List (String × String)} {k : String}
    (h : ∀ e ∈ es, e.1 ≠ k) : lookupKV es k = none := by
  induction es with
  | nil => rfl
  | cons e rest ih =>
    obtain ⟨k', v'⟩ := e
    simp only [lookupKV]
    rw [if_neg (h (k', v') (by simp))]
    exact ih (fun e he => h e (by simp [he]))

theorem lookupKV_isSome_of_mem {es : List (String × String)} {k v : String}
    (h : (k, v) ∈ es) : ∃ u, lookupKV es k = some u := by
  induction es with
  | nil => simp at h
  | cons e rest ih =>
    obtain ⟨k', v'⟩ := e
    by_cases hk : k' = k
    · exact ⟨v', by simp [lookupKV, hk]⟩
    · simp only [lookupKV, if_neg hk]
      rcases List.mem_cons.mp h with he | he
      · exact absurd (congrArg Prod.fst he).symm hk
      · exact ih he

/-- Characterisation of the `get`/`insert` descent over a canonical trie:
the terminal node is never a branch; it is empty only when the key is
absent; a terminal leaf determines the lookup result, belongs to the
entry list, and its key digest agrees with the searched key's digest on
every traversed level. -/
theorem descend_spec (B : String → Nat → Bool) (k : String) :
    ∀ (n : SNode) (hh : Nat) (es : List (String × String)), IsTrie B n hh es →
    (∀ l0 r0 h0, (descend B k n hh).1 ≠ SNode.branch l0 r0 h0) ∧
      ((descend B k n hh).1 = SNode.empty → lookupKV es k = none) ∧
      (∀ k' v', (descend B k n hh).1 = SNode.leaf k' v' →
        (k', v') ∈ es ∧
          (k' = k → lookupKV es k = some v') ∧
          (k' ≠ k → lookupKV es k = none) ∧
          (∀ j, hh ≤ j → j < hh + (descend B k n hh).2.length → B k' j = B k j)) := by
  intro n hh es ht
  induction ht with
  | empty h0 =>
    refine ⟨by simp [descend], fun _ => rfl, fun k' v' hleaf => ?_⟩
    simp [descend] at hleaf
  | leaf kk vv h0 =>
    refine ⟨by simp [descend], by simp [descend], fun k' v' hleaf => ?_⟩
    simp only [descend] at hleaf
    obtain ⟨hk, hv⟩ := SNode.leaf.inj hleaf
    subst hk
    subst hv
    refine ⟨by simp, fun hk => ?_, fun hk => ?_, fun j hj1 hj2 => ?_⟩
    · simp [lookupKV, hk]
    · simp only [lookupKV]
      rw [if_neg hk]
    · simp [descend] at hj2
      omega
  | branch l r esl esr h0 hl hr hbl hbr hlen2 ihl ihr =>
    by_cases hb : B k h0
    · -- descend goes right
      have hdes : descend B k (new_branch l r) h0 =
          ((descend B k r (h0 + 1)).1, (descend B k r (h0 + 1)).2 ++ [l.get_hash]) := by
        simp [descend, new_branch, hb]
      have hesl_ne : ∀ e ∈ esl, e.1 ≠ k := by
        intro e he hek
        have := hbl e he
        rw [hek, hb] at this
        simp at this
      have heslnone : lookupKV esl k = none := lookupKV_eq_none_of_all_ne hesl_ne
      obtain ⟨ih1, ih2, ih3⟩ := ihr
      refine ⟨?_, ?_, ?_⟩
      · rw [hdes]
        exact ih1
      · rw [hdes]
        intro hstop
        rw [lookupKV_append, heslnone]
        exact ih2 hstop
      · rw [hdes]
        intro k' v' hstop
        obtain ⟨hmem, hsome, hnone, hbits⟩ := ih3 k' v' hstop
        refine ⟨List.mem_append_right _ hmem, ?_, ?_, ?_⟩
        · intro hk
          rw [lookupKV_append, heslnone]
          exact hsome hk
        · intro hk
          rw [lookupKV_append, heslnone]
          exact hnone hk
        · intro j hj1 hj2
          simp only [List.length_append, List.length_cons, List.length_nil] at hj2
          rcases Nat.eq_or_lt_of_le hj1 with hje | hjl
          · subst hje
            rw [hbr (k', v') hmem, hb]
          · exact hbits j (by omega) (by omega)
    · -- descend goes left
      have hdes : descend B k (new_branch l r) h0 =
          ((descend B k l (h0 + 1)).1, (descend B k l (h0 + 1)).2 ++ [r.get_hash]) := by
        simp [descend, new_branch, hb]
      have hesr_ne : ∀ e ∈ esr, e.1 ≠ k := by
        intro e he hek
        have := hbr e he
        rw [hek] at this
        rw [this] at hb
        exact hb rfl
      have hesrnone : lookupKV esr k = none := lookupKV_eq_none_of_all_ne hesr_ne
      obtain ⟨ih1, ih2, ih3⟩ := ihl
      refine ⟨?_, ?_, ?_⟩
      · rw [hdes]
        exact ih1
      · rw [hdes]
        intro hstop
        rw [lookupKV_append]
        rw [ih2 hstop, hesrnone]
      · rw [hdes]
        intro k' v' hstop
        obtain ⟨hmem, hsome, hnone, hbits⟩ := ih3 k' v' hstop
        refine ⟨List.mem_append_left _ hmem, ?_, ?_, ?_⟩
        · intro hk
          rw [lookupKV_append, hsome hk]
        · intro hk
          rw [lookupKV_append, hnone hk, hesrnone]
        · intro j hj1 hj2
          simp only [List.length_append, List.length_cons, List.length_nil] at hj2
          rcases Nat.eq_or_lt_of_le hj1 with hje | hjl
          · subst hje
            rw [hbl (k', v') hmem]
            simp only [Bool.not_eq_true] at hb
            rw [hb]
          · exact hbits j (by omega) (by omega)

theorem checkLoop_append (B : String → Nat → Bool) (key : String) (len : Nat) :
    ∀ (a b : List SDigest) (idx : Nat) (acc : SDigest),
    checkLoop B key len idx acc (a ++ b) =
      checkLoop B key len (idx + a.length) (checkLoop B key len idx acc a) b
  | [], b, idx, acc => by simp [checkLoop]
  | s :: rest, b, idx, acc => by
    simp only [List.cons_append, checkLoop, List.append_eq]
    rw [checkLoop_append B key len rest b (idx + 1)]
    congr 1
    simp only [List.length_cons]
    omega

/-- The `check_proof` fold rebuilds each node's stored hash from the
terminal node of the descent: bit `len - idx - 1` addresses exactly the
height at which sibling `idx` was recorded. -/
theorem descend_recon (B : String → Nat → Bool) (k : String) :
    ∀ (n : SNode) (hh : Nat) (es : List (String × String)), IsTrie B n hh es →
    ∀ (len idx : Nat), len = idx + hh + (descend B k n hh).2.length →
    checkLoop B k len idx ((descend B k n hh).1.get_hash) (descend B k n hh).2 =
      n.get_hash := by
  intro n hh es ht
  induction ht with
  | empty h0 => intro len idx hlen; rfl
  | leaf kk vv h0 => intro len idx hlen; rfl
  | branch l r esl esr h0 hl hr hbl hbr hlen2 ihl ihr =>
    intro len idx hlen
    by_cases hb : B k h0
    · have hdes : descend B k (new_branch l r) h0 =
          ((descend B k r (h0 + 1)).1, (descend B k r (h0 + 1)).2 ++ [l.get_hash]) := by
        simp [descend, new_branch, hb]
      rw [hdes] at hlen ⊢
      simp only
      rw [checkLoop_append]
      rw [ihr len idx (by simp at hlen ⊢; omega)]
      simp only [checkLoop]
      have hbit : len - (idx + (descend B k r (h0 + 1)).2.length) - 1 = h0 := by
        simp only [List.length_append, List.length_cons, List.length_nil] at hlen
        omega
      rw [hbit, if_pos hb]
      rfl
    · have hdes : descend B k (new_branch l r) h0 =
          ((descend B k l (h0 + 1)).1, (descend B k l (h0 + 1)).2 ++ [r.get_hash]) := by
        simp [descend, new_branch, hb]
      rw [hdes] at hlen ⊢
      simp only
      rw [checkLoop_append]
      rw [ihl len idx (by simp at hlen ⊢; omega)]
      simp only [checkLoop]
      have hbit : len - (idx + (descend B k l (h0 + 1)).2.length) - 1 = h0 := by
        simp only [List.length_append, List.length_cons, List.length_nil] at hlen
        omega
      rw [hbit, if_neg hb]
      rfl

/-- The `check_proof` fold is injective in its accumulator. -/
theorem checkLoop_inj (B : String → Nat → Bool) (key : String) (len : Nat) :
    ∀ (s : List SDigest) (idx : Nat) (a b : SDigest),
    checkLoop B key len idx a s = checkLoop B key len idx b s → a = b
  | [], idx, a, b, h => h
  | x :: rest, idx, a, b, h => by
    simp only [checkLoop] at h
    have := checkLoop_inj B key len rest (idx + 1) _ _ h
    by_cases hb : B key (len - idx - 1)
    · rw [if_pos hb, if_pos hb] at this
      exact (SDigest.br.inj this).2
    · rw [if_neg hb, if_neg hb] at this
      exact (SDigest.br.inj this).1

/-- The differing-bit base case of the leaf split: the two leaves are
placed as siblings in bit order. -/
theorem splitLeafSpecBase (B : String → Nat → Bool) (depth : Nat) (k v k' v' : String)
    (hkk : k' ≠ k) (h : Nat) (m : SNode) (hb : ¬ B k h = B k' h)
    (hs : (if B k h then new_branch (SNode.leaf k' v') (SNode.leaf k v)
      else new_branch (SNode.leaf k v) (SNode.leaf k' v')) = m) :
    ∃ es, IsTrie B m h es ∧
      (∀ k0, lookupKV es k0 =
        if k0 = k then some v else if k0 = k' then some v' else none) ∧
      (∀ e ∈ es, e.1 = k ∨ e.1 = k') ∧ 2 ≤ es.length := by
  cases hbkh : B k h with
  | true =>
    rw [if_pos (by rw [hbkh])] at hs
    have hbk' : B k' h = false := by
      cases hx : B k' h with
      | false => rfl
      | true => rw [hbkh, hx] at hb; exact absurd rfl hb
    refine ⟨[(k', v')] ++ [(k, v)], ?_, ?_, ?_, ?_⟩
    · rw [← hs]
      exact IsTrie.branch (SNode.leaf k' v') (SNode.leaf k v) [(k', v')] [(k, v)] h
        (IsTrie.leaf k' v' (h + 1)) (IsTrie.leaf k v (h + 1))
        (by intro e he; simp at he; rw [he]; exact hbk')
        (by intro e he; simp at he; rw [he]; exact hbkh)
        (by simp)
    · intro k0
      have n3 : ¬ k = k' := fun he => hkk he.symm
      by_cases h1 : k0 = k
      · by_cases h2 : k0 = k' <;> simp_all [lookupKV]
      · have n2 : ¬ k = k0 := fun he => h1 he.symm
        by_cases h2 : k0 = k'
        · simp_all [lookupKV]
        · have n1 : ¬ k' = k0 := fun he => h2 he.symm
          simp_all [lookupKV]
    · intro e he
      simp at he
      rcases he with he | he <;> rw [he] <;> simp
    · simp
  | false =>
    rw [if_neg (by rw [hbkh]; simp)] at hs
    have hbk' : B k' h = true := by
      cases hx : B k' h with
      | true => rfl
      | false => rw [hbkh, hx] at hb; exact absurd rfl hb
    refine ⟨[(k, v)] ++ [(k', v')], ?_, ?_, ?_, ?_⟩
    · rw [← hs]
      exact IsTrie.branch (SNode.leaf k v) (SNode.leaf k' v') [(k, v)] [(k', v')] h
        (IsTrie.leaf k v (h + 1)) (IsTrie.leaf k' v' (h + 1))
        (by intro e he; simp at he; rw [he]; exact hbkh)
        (by intro e he; simp at he; rw [he]; exact hbk')
        (by simp)
    · intro k0
      have n3 : ¬ k = k' := fun he => hkk he.symm
      by_cases h1 : k0 = k
      · by_cases h2 : k0 = k' <;> simp_all [lookupKV]
      · have n2 : ¬ k = k0 := fun he => h1 he.symm
        by_cases h2 : k0 = k'
        · simp_all [lookupKV]
        · have n1 : ¬ k' = k0 := fun he => h2 he.symm
          simp_all [lookupKV]
    · intro e he
      simp at he
      rcases he with he | he <;> rw [he] <;> simp
    · simp

/-- The leaf split produces the canonical two-leaf trie of the old and
new entries. -/
theorem splitLeaf_spec (B : String → Nat → Bool) (depth : Nat) (k v k' v' : String)
    (hkk : k' ≠ k) : ∀ (fuel h : Nat), depth ≤ h + 1 + fuel → ∀ (m : SNode),
    splitLeaf B depth k v k' v' fuel h = some m →
    ∃ es, IsTrie B m h es ∧
      (∀ k0, lookupKV es k0 =
        if k0 = k then some v else if k0 = k' then some v' else none) ∧
      (∀ e ∈ es, e.1 = k ∨ e.1 = k') ∧ 2 ≤ es.length := by
  intro fuel
  induction fuel with
  | zero =>
    intro h hfuel m hs
    rw [splitLeaf] at hs
    by_cases hb : B k h = B k' h
    · rw [if_pos hb, if_pos (by omega)] at hs
      exact absurd hs (by simp)
    · rw [if_neg hb] at hs
      simp only [Option.some.injEq] at hs
      exact splitLeafSpecBase B depth k v k' v' hkk h m hb hs
  | succ fuel1 ih =>
    intro h hfuel m hs
    rw [splitLeaf] at hs
    by_cases hb : B k h = B k' h
    · rw [if_pos hb] at hs
      by_cases hd : depth ≤ h + 1
      · rw [if_pos hd] at hs
        exact absurd hs (by simp)
      · rw [if_neg hd] at hs
        cases hsub : splitLeaf B depth k v k' v' fuel1 (h + 1) with
        | none =>
          rw [hsub] at hs
          exact absurd hs (by simp)
        | some sub =>
          rw [hsub] at hs
          simp only [Option.some.injEq] at hs
          obtain ⟨es, hTrie, hlook, hkeys, hlen⟩ := ih (h + 1) (by omega) sub hsub
          have hbits : ∀ e ∈ es, B e.1 h = B k h := by
            intro e he
            rcases hkeys e he with hek | hek
            · rw [hek]
            · rw [hek, ← hb]
          cases hbkh : B k h with
          | true =>
            rw [if_pos (by rw [hbkh]) ] at hs
            refine ⟨[] ++ es, ?_, ?_, ?_, ?_⟩
            · rw [← hs]
              exact IsTrie.branch SNode.empty sub [] es h (IsTrie.empty (h + 1)) hTrie
                (by simp) (fun e he => by rw [hbits e he, hbkh]) (by simpa using hlen)
            · simpa using hlook
            · simpa using hkeys
            · simpa using hlen
          | false =>
            rw [if_neg (by rw [hbkh]; simp)] at hs
            refine ⟨es ++ [], ?_, ?_, ?_, ?_⟩
            · rw [← hs]
              exact IsTrie.branch sub SNode.empty es [] h hTrie (IsTrie.empty (h + 1))
                (fun e he => by rw [hbits e he, hbkh]) (by simp) (by simpa using hlen)
            · simpa using hlook
            · simpa using hkeys
            · simpa using hlen
    · rw [if_neg hb] at hs
      simp only [Option.some.injEq] at hs
      exact splitLeafSpecBase B depth k v k' v' hkk h m hb hs

/-- Insert simulation: a successful `insertNode` on a canonical trie
yields the canonical trie of the updated entry list. -/
theorem insertNode_spec (B : String → Nat → Bool) (depth : Nat) (k v : String) :
    ∀ (n : SNode) (hh : Nat) (es : List (String × String)), IsTrie B n hh es →
    ∀ n', insertNode B depth k v n hh = some n' →
    ∃ es', IsTrie B n' hh es' ∧
      (∀ k0, lookupKV es' k0 = if k0 = k then some v else lookupKV es k0) ∧
      (∀ e ∈ es', e.1 = k ∨ ∃ e0 ∈ es, e.1 = e0.1) ∧
      es.length ≤ es'.length := by
  intro n hh es ht
  induction ht with
  | empty h0 =>
    intro n' hs
    simp only [insertNode, Option.some.injEq] at hs
    refine ⟨[(k, v)], ?_, ?_, ?_, ?_⟩
    · rw [← hs]
      exact IsTrie.leaf k v h0
    · intro k0
      by_cases h1 : k0 = k
      · subst h1
        simp [lookupKV]
      · rw [if_neg h1]
        simp only [lookupKV]
        rw [if_neg (fun he => h1 he.symm)]
    · intro e he
      simp at he
      rw [he]
      exact Or.inl rfl
    · simp
  | leaf kk vv h0 =>
    intro n' hs
    simp only [insertNode] at hs
    by_cases hkeq : kk = k
    · rw [if_pos hkeq] at hs
      simp only [Option.some.injEq] at hs
      subst hkeq
      refine ⟨[(kk, v)], ?_, ?_, ?_, ?_⟩
      · rw [← hs]
        exact IsTrie.leaf kk v h0
      · intro k0
        by_cases h1 : k0 = kk
        · subst h1
          simp [lookupKV]
        · rw [if_neg h1]
          simp only [lookupKV]
          rw [if_neg (fun he => h1 he.symm), if_neg (fun he => h1 he.symm)]
      · intro e he
        simp at he
        rw [he]
        exact Or.inl rfl
      · simp
    · rw [if_neg hkeq] at hs
      obtain ⟨es', hTrie, hlook, hkeys, hlen⟩ :=
        splitLeaf_spec B depth k v kk vv hkeq depth h0 (by omega) n' hs
      refine ⟨es', hTrie, ?_, ?_, by simp; omega⟩
      · intro k0
        rw [hlook k0]
        by_cases h1 : k0 = k
        · rw [if_pos h1, if_pos h1]
        · rw [if_neg h1, if_neg h1]
          simp only [lookupKV]
          by_cases h2 : k0 = kk
          · rw [if_pos h2, if_pos (h2 ▸ rfl)]
          · rw [if_neg h2, if_neg (fun he => h2 he.symm)]
      · intro e he
        rcases hkeys e he with hek | hek
        · exact Or.inl hek
        · exact Or.inr ⟨(kk, vv), by simp, hek⟩
  | branch l r esl esr h0 hl hr hbl hbr hlen2 ihl ihr =>
    intro n' hs
    by_cases hb : B k h0
    · have hs' : (match insertNode B depth k v r (h0 + 1) with
          | none => none
          | some r' => some (new_branch l r')) = some n' := by
        rw [← hs]
        simp [insertNode, new_branch, hb]
      cases hrec : insertNode B depth k v r (h0 + 1) with
      | none =>
        rw [hrec] at hs'
        exact absurd hs' (by simp)
      | some r' =>
        rw [hrec] at hs'
        simp only [Option.some.injEq] at hs'
        obtain ⟨es'r, hTrie, hlook, hkeys, hlen⟩ := ihr r' hrec
        have hesl_ne : ∀ e ∈ esl, e.1 ≠ k := by
          intro e he hek
          have := hbl e he
          rw [hek, hb] at this
          simp at this
        have heslnone : lookupKV esl k = none := lookupKV_eq_none_of_all_ne hesl_ne
        refine ⟨esl ++ es'r, ?_, ?_, ?_, ?_⟩
        · rw [← hs']
          refine IsTrie.branch l r' esl es'r h0 hl hTrie hbl ?_ (by omega)
          intro e he
          rcases hkeys e he with hek | ⟨e0, he0, hek⟩
          · rw [hek]
            exact hb
          · rw [hek]
            exact hbr e0 he0
        · intro k0
          by_cases h1 : k0 = k
          · subst h1
            rw [if_pos rfl, lookupKV_append, heslnone]
            rw [hlook k0, if_pos rfl]
          · rw [if_neg h1, lookupKV_append, lookupKV_append]
            rw [hlook k0, if_neg h1]
        · intro e he
          rcases List.mem_append.mp he with hel | her
          · exact Or.inr ⟨e, List.mem_append_left _ hel, rfl⟩
          · rcases hkeys e her with hek | ⟨e0, he0, hek⟩
            · exact Or.inl hek
            · exact Or.inr ⟨e0, List.mem_append_right _ he0, hek⟩
        · simp only [List.length_append]
          omega
    · have hs' : (match insertNode B depth k v l (h0 + 1) with
          | none => none
          | some l' => some (new_branch l' r)) = some n' := by
        rw [← hs]
        simp [insertNode, new_branch, hb]
      cases hrec : insertNode B depth k v l (h0 + 1) with
      | none =>
        rw [hrec] at hs'
        exact absurd hs' (by simp)
      | some l' =>
        rw [hrec] at hs'
        simp only [Option.some.injEq] at hs'
        obtain ⟨es'l, hTrie, hlook, hkeys, hlen⟩ := ihl l' hrec
        have hbf : B k h0 = false := by
          cases hx : B k h0 with
          | false => rfl
          | true => exact absurd hx hb
        have hesr_ne : ∀ e ∈ esr, e.1 ≠ k := by
          intro e he hek
          have := hbr e he
          rw [hek, hbf] at this
          simp at this
        have hesrnone : lookupKV esr k = none := lookupKV_eq_none_of_all_ne hesr_ne
        refine ⟨es'l ++ esr, ?_, ?_, ?_, ?_⟩
        · rw [← hs']
          refine IsTrie.branch l' r es'l esr h0 hTrie hr ?_ hbr (by omega)
          intro e he
          rcases hkeys e he with hek | ⟨e0, he0, hek⟩
          · rw [hek]
            exact hbf
          · rw [hek]
            exact hbl e0 he0
        · intro k0
          by_cases h1 : k0 = k
          · subst h1
            rw [if_pos rfl, lookupKV_append]
            rw [hlook k0, if_pos rfl]
          · rw [if_neg h1, lookupKV_append, lookupKV_append]
            rw [hlook k0, if_neg h1]
        · intro e he
          rcases List.mem_append.mp he with hel | her
          · rcases hkeys e hel with hek | ⟨e0, he0, hek⟩
            · exact Or.inl hek
            · exact Or.inr ⟨e0, List.mem_append_left _ he0, hek⟩
          · exact Or.inr ⟨e, List.mem_append_right _ her, rfl⟩
        · simp only [List.length_append]
          omega

theorem opsApply_congr : ∀ (ops : List (String × String))
    (m1 m2 : String → Option String), (∀ k0, m1 k0 = m2 k0) →
    ∀ k0, opsApply ops m1 k0 = opsApply ops m2 k0
  | [], m1, m2, hm, k0 => hm k0
  | (k, v) :: rest, m1, m2, hm, k0 => by
    simp only [opsApply]
    exact opsApply_congr rest _ _ (fun k1 => by by_cases h : k1 = k <;> simp [h, hm]) k0

/-- Unfolding of `SparseMerkleTree.insert` on success. -/
theorem insert_eq_some {B : String → Nat → Bool} {t t1 : SparseMerkleTree}
    {k v : String} (h : t.insert B k v = some t1) :
    ∃ root', insertNode B t.depth k v t.root 0 = some root' ∧
      t1 = SparseMerkleTree.mk root' root'.get_hash t.depth := by
  unfold SparseMerkleTree.insert at h
  cases hrec : insertNode B t.depth k v t.root 0 with
  | none =>
    rw [hrec] at h
    exact absurd h (by simp)
  | some root' =>
    rw [hrec] at h
    simp only [Option.some.injEq] at h
    exact ⟨root', rfl, h.symm⟩

/-- Invariant of a successful sequence of inserts: the tree stays a
canonical trie of an entry list whose lookup function is the sequential
update of the initial one, with a cached root digest and an unchanged
depth. -/
theorem applyInserts_spec (B : String → Nat → Bool) :
    ∀ (ops : List (String × String)) (t t' : SparseMerkleTree)
    (es : List (String × String)), IsTrie B t.root 0 es →
    t.root_digest = t.root.get_hash → applyInserts B t ops = some t' →
    ∃ es', IsTrie B t'.root 0 es' ∧ t'.root_digest = t'.root.get_hash ∧
      t'.depth = t.depth ∧
      (∀ k0, lookupKV es' k0 = opsApply ops (lookupKV es) k0) ∧
      (∀ e ∈ es', (∃ e0 ∈ ops, e.1 = e0.1) ∨ ∃ e0 ∈ es, e.1 = e0.1)
  | [], t, t', es, ht, hdig, happ => by
    simp only [applyInserts, Option.some.injEq] at happ
    subst happ
    exact ⟨es, ht, hdig, rfl, fun k0 => rfl, fun e he => Or.inr ⟨e, he, rfl⟩⟩
  | (k, v) :: rest, t, t', es, ht, hdig, happ => by
    simp only [applyInserts] at happ
    cases hins : t.insert B k v with
    | none =>
      rw [hins] at happ
      exact absurd happ (by simp)
    | some t1 =>
      rw [hins] at happ
      obtain ⟨root', hrec, ht1⟩ := insert_eq_some hins
      obtain ⟨es1, hTrie1, hlook1, hkeys1, _⟩ :=
        insertNode_spec B t.depth k v t.root 0 es ht root' hrec
      have ht1root : t1.root = root' := by rw [ht1]
      have ht1dig : t1.root_digest = t1.root.get_hash := by rw [ht1]
      have ht1depth : t1.depth = t.depth := by rw [ht1]
      obtain ⟨es', hTrie', hdig', hdepth', hlook', hkeys'⟩ :=
        applyInserts_spec B rest t1 t' es1 (ht1root ▸ hTrie1) ht1dig happ
      refine ⟨es', hTrie', hdig', by rw [hdepth', ht1depth], ?_, ?_⟩
      · intro k0
        rw [hlook' k0]
        simp only [opsApply]
        exact opsApply_congr rest _ _ (fun k1 => by rw [hlook1 k1]) k0
      · intro e he
        rcases hkeys' e he with ⟨e0, he0, hek⟩ | ⟨e0, he0, hek⟩
        · exact Or.inl ⟨e0, by simp [he0], hek⟩
        · rcases hkeys1 e0 he0 with hek0 | ⟨e1, he1, hek1⟩
          · exact Or.inl ⟨(k, v), by simp, by rw [hek, hek0]⟩
          · exact Or.inr ⟨e1, he1, by rw [hek, hek1]⟩

/-- `get` returns the association-list lookup of the trie's entries. -/
theorem get_spec (B : String → Nat → Bool) (t : SparseMerkleTree) (k : String)
    (es : List (String × String)) (ht : IsTrie B t.root 0 es) :
    (t.get B k).1 = lookupKV es k := by
  obtain ⟨h1, h2, h3⟩ := descend_spec B k t.root 0 es ht
  unfold SparseMerkleTree.get
  cases hstop : (descend B k t.root 0).1 with
  | empty =>
    dsimp only
    rw [h2 hstop]
  | leaf k' v' =>
    obtain ⟨hmem, hsome, hnone, _⟩ := h3 k' v' hstop
    dsimp only
    by_cases hk : k' = k
    · rw [if_neg (fun hne => hne hk), hsome hk]
    · rw [if_pos hk, hnone hk]
  | branch l0 r0 h0 =>
    exact absurd hstop (h1 l0 r0 h0)

theorem get_snd (B : String → Nat → Bool) (t : SparseMerkleTree) (k : String) :
    (t.get B k).2 = ⟨(descend B k t.root 0).2⟩ := by
  unfold SparseMerkleTree.get
  cases hstop : (descend B k t.root 0).1 with
  | empty => rfl
  | leaf k' v' =>
    dsimp only
    by_cases hk : k' ≠ k
    · rw [if_pos hk]
    · rw [if_neg hk]
  | branch l0 r0 h0 => rfl

/-- A proof returned by `get` for a *present* key verifies. -/
theorem check_proof_present (B : String → Nat → Bool) (t : SparseMerkleTree)
    (k v : String) (es : List (String × String)) (ht : IsTrie B t.root 0 es)
    (hdig : t.root_digest = t.root.get_hash) (hlook : lookupKV es k = some v) :
    SparseMerkleTree.check_proof B k (some v) (t.get B k).2 t.commit = some () := by
  obtain ⟨h1, h2, h3⟩ := descend_spec B k t.root 0 es ht
  rw [get_snd]
  cases hstop : (descend B k t.root 0).1 with
  | empty =>
    rw [h2 hstop] at hlook
    exact absurd hlook (by simp)
  | leaf k' v' =>
    obtain ⟨hmem, hsome, hnone, _⟩ := h3 k' v' hstop
    by_cases hk : k' = k
    · have hv : v' = v := by
        have := hsome hk
        rw [this] at hlook
        exact (Option.some.inj hlook)
      unfold SparseMerkleTree.check_proof
      have hrecon := descend_recon B k t.root 0 es ht
        ((descend B k t.root 0).2.length) 0 (by omega)
      rw [hstop] at hrecon
      have hacc : (SNode.leaf k' v').get_hash = hash_kv k ((some v).getD "") := by
        simp only [SNode.get_hash, Option.getD]
        rw [hk, hv]
      rw [hacc] at hrecon
      simp only
      rw [hrecon]
      rw [SparseMerkleTree.commit, hdig]
      rw [if_pos rfl]
    · rw [hnone hk] at hlook
      exact absurd hlook (by simp)
  | branch l0 r0 h0 =>
    exact absurd hstop (h1 l0 r0 h0)

/-- A proof returned by `get` for an *absent* key does not verify with
`None`: the recomputed leaf hash `hash_kv(key, "")` differs from the
terminal node's hash, and the fold is injective. -/
theorem check_proof_absent (B : String → Nat → Bool) (t : SparseMerkleTree)
    (k : String) (es : List (String × String)) (ht : IsTrie B t.root 0 es)
    (hdig : t.root_digest = t.root.get_hash) (hlook : lookupKV es k = none) :
    SparseMerkleTree.check_proof B k none (t.get B k).2 t.commit = none := by
  obtain ⟨h1, h2, h3⟩ := descend_spec B k t.root 0 es ht
  rw [get_snd]
  unfold SparseMerkleTree.check_proof
  simp only
  rw [SparseMerkleTree.commit, hdig]
  have hrecon := descend_recon B k t.root 0 es ht
    ((descend B k t.root 0).2.length) 0 (by omega)
  rw [if_neg ?hne]
  case hne =>
    intro heq
    rw [← hrecon] at heq
    have hacc := checkLoop_inj B k ((descend B k t.root 0).2.length)
      ((descend B k t.root 0).2) 0 _ _ heq
    cases hstop : (descend B k t.root 0).1 with
    | empty =>
      rw [hstop] at hacc
      simp only [SNode.get_hash, hash_kv] at hacc
      exact absurd hacc (by simp)
    | leaf k' v' =>
      obtain ⟨hmem, hsome, hnone, _⟩ := h3 k' v' hstop
      by_cases hk : k' = k
      · rw [hsome hk] at hlook
        exact absurd hlook (by simp)
      · rw [hstop] at hacc
        simp only [SNode.get_hash, hash_kv, SDigest.kv.injEq] at hacc
        exact hk hacc.1.symm
    | branch l0 r0 h0 =>
      exact absurd hstop (h1 l0 r0 h0)

theorem lastVal_cons (k1 v1 : String) (rest : List (String × String)) (k : String) :
    lastVal ((k1, v1) :: rest) k =
      (match lastVal rest k with
        | some v => some v
        | none => if k1 = k then some v1 else none) := by
  unfold lastVal
  simp only [List.reverse_cons, List.find?_append]
  cases hfind : rest.reverse.find? (fun e => e.1 == k) with
  | none =>
    simp only [Option.none_or]
    simp only [List.find?]
    by_cases hk : k1 = k
    · rw [show (((k1, v1).1 == k) : Bool) = true from by simp [hk]]
      simp [hk]
    · rw [show (((k1, v1).1 == k) : Bool) = false from by simp [hk]]
      simp [hk]
  | some e =>
    simp only [Option.or_some]
    rfl

theorem opsApply_lastVal : ∀ (ops : List (String × String))
    (m : String → Option String) (k : String),
    opsApply ops m k =
      (match lastVal ops k with
        | some v => some v
        | none => m k)
  | [], m, k => by simp [opsApply, lastVal, List.find?]
  | (k1, v1) :: rest, m, k => by
    simp only [opsApply]
    rw [opsApply_lastVal rest _ k, lastVal_cons]
    cases lastVal rest k with
    | some v => rfl
    | none =>
      by_cases hk : k1 = k
      · simp [hk]
      · have hk2 : ¬ k = k1 := fun he => hk he.symm
        simp [hk, hk2]

/-- Claim C3: for every SMT built by a sequence of successful inserts and every
key whose most recent insert had value `v`, `get` returns `some v` and
the returned proof verifies against `commit()`. -/
theorem smt_get_inclusion (B : String → Nat → Bool) (d : Nat)
    (ops : List (String × String)) (k v : String) (t : SparseMerkleTree)
    (h1 : applyInserts B (SparseMerkleTree.with_depth d) ops = some t)
    (h2 : lastVal ops k = some v) :
    (t.get B k).1 = some v ∧
      SparseMerkleTree.check_proof B k (some v) (t.get B k).2 t.commit = some () := by
  obtain ⟨es, hTrie, hdig, hdepth, hlook, hkeys⟩ := applyInserts_spec B ops
    (SparseMerkleTree.with_depth d) t [] (IsTrie.empty 0) rfl h1
  have hlk : lookupKV es k = some v := by
    rw [hlook k, opsApply_lastVal, h2]
  constructor
  · rw [get_spec B t k es hTrie]
    exact hlk
  · exact check_proof_present B t k v es hTrie hdig hlk

/-- Claim C4, amended: for a key that was never inserted, `get` returns
`(none, π)` — but the exclusion proof does *not* verify: `check_proof`
with `None` returns `None` (matching the repository's own test, which
asserts `is_none()` for absent keys). -/
theorem smt_get_exclusion_fails (B : String → Nat → Bool) (d : Nat)
    (ops : List (String × String)) (k : String) (t : SparseMerkleTree)
    (h1 : applyInserts B (SparseMerkleTree.with_depth d) ops = some t)
    (h2 : lastVal ops k = none) :
    (t.get B k).1 = none ∧
      SparseMerkleTree.check_proof B k none (t.get B k).2 t.commit = none := by
  obtain ⟨es, hTrie, hdig, hdepth, hlook, hkeys⟩ := applyInserts_spec B ops
    (SparseMerkleTree.with_depth d) t [] (IsTrie.empty 0) rfl h1
  have hlk : lookupKV es k = none := by
    rw [hlook k, opsApply_lastVal, h2]
    rfl
  constructor
  · rw [get_spec B t k es hTrie]
    exact hlk
  · exact check_proof_absent B t k es hTrie hdig hlk

/-- Claim C4, counterexample (scenario 4 of the spec): insert `("key1","value1")`
into an SMT with the default depth 20, then `get "absent"`; the result is
`(None, π)` but `check_proof("absent", None, π, commit())` returns `None`
— the exclusion proof does not verify, contradicting the claim (and
matching the repository's own test expectations). -/
theorem smt_exclusion_counterexample :
    (((SparseMerkleTree.mk (SNode.leaf "key1" "value1")
          (SDigest.kv "key1" "value1") 20).get allZeroBits "absent").1 = none ∧
        applyInserts allZeroBits (SparseMerkleTree.with_depth 20) [("key1", "value1")] =
          some (SparseMerkleTree.mk (SNode.leaf "key1" "value1")
            (SDigest.kv "key1" "value1") 20)) ∧
      SparseMerkleTree.check_proof allZeroBits "absent" none
          ((SparseMerkleTree.mk (SNode.leaf "key1" "value1")
            (SDigest.kv "key1" "value1") 20).get allZeroBits "absent").2
          (SparseMerkleTree.mk (SNode.leaf "key1" "value1")
            (SDigest.kv "key1" "value1") 20).commit = none := by
  decide

theorem smt_get_inclusion_witness :
    ((SparseMerkleTree.mk (SNode.leaf "k1" "v1") (SDigest.kv "k1" "v1") 20).get
        allZeroBits "k1").1 = some "v1" ∧
      SparseMerkleTree.check_proof allZeroBits "k1" (some "v1")
          ((SparseMerkleTree.mk (SNode.leaf "k1" "v1") (SDigest.kv "k1" "v1") 20).get
            allZeroBits "k1").2
          (SparseMerkleTree.mk (SNode.leaf "k1" "v1") (SDigest.kv "k1" "v1") 20).commit =
        some () :=
  smt_get_inclusion allZeroBits 20 [("k1", "v1")] "k1" "v1"
    (SparseMerkleTree.mk (SNode.leaf "k1" "v1") (SDigest.kv "k1" "v1") 20)
    (by decide) (by decide)

theorem smt_get_exclusion_fails_witness :
    ((SparseMerkleTree.mk (SNode.leaf "k1" "v1") (SDigest.kv "k1" "v1") 20).get
        allZeroBits "absent").1 = none ∧
      SparseMerkleTree.check_proof allZeroBits "absent" none
          ((SparseMerkleTree.mk (SNode.leaf "k1" "v1") (SDigest.kv "k1" "v1") 20).get
            allZeroBits "absent").2
          (SparseMerkleTree.mk (SNode.leaf "k1" "v1") (SDigest.kv "k1" "v1") 20).commit =
        none :=
  smt_get_exclusion_fails allZeroBits 20 [("k1", "v1")] "absent"
    (SparseMerkleTree.mk (SNode.leaf "k1" "v1") (SDigest.kv "k1" "v1") 20)
    (by decide) (by decide)

theorem splitLeaf_none (B : String → Nat → Bool) (depth : Nat) (k v k' v' : String) :
    ∀ (fuel h : Nat), h < depth → (∀ j, h ≤ j → j < depth → B k j = B k' j) →
    splitLeaf B depth k v k' v' fuel h = none := by
  intro fuel
  induction fuel with
  | zero =>
    intro h hd hagree
    rw [splitLeaf]
    rw [if_pos (hagree h (le_refl _) hd)]
    by_cases hd1 : depth ≤ h + 1
    · rw [if_pos hd1]
    · rw [if_neg hd1]
  | succ fuel1 ih =>
    intro h hd hagree
    rw [splitLeaf]
    rw [if_pos (hagree h (le_refl _) hd)]
    by_cases hd1 : depth ≤ h + 1
    · rw [if_pos hd1]
    · rw [if_neg hd1]
      rw [ih (h + 1) (by omega) (fun j hj1 hj2 => hagree j (by omega) hj2)]

/-- Claim C6, amended: inserting a second, distinct key whose digest agrees
with the present key's digest on all of the first `depth` bits does not
return a `KeyCollision` error — `IndexerError` has no such variant — it
panics (modelled as `none`). -/
theorem smt_keycollision_panics (B : String → Nat → Bool) (d : Nat)
    (k1 v1 k2 v2 : String) (t1 : SparseMerkleTree) (hd : 1 ≤ d) (hkk : k1 ≠ k2)
    (hagree : ∀ j, j < d → B k1 j = B k2 j)
    (h1 : (SparseMerkleTree.with_depth d).insert B k1 v1 = some t1) :
    t1.insert B k2 v2 = none := by
  obtain ⟨root', hrec, ht1⟩ := insert_eq_some h1
  have hroot : root' = SNode.leaf k1 v1 := by
    simp only [insertNode, Option.some.injEq] at hrec
    exact hrec.symm
  subst ht1
  unfold SparseMerkleTree.insert
  simp only [hroot, insertNode]
  rw [if_neg hkk]
  have hdd : (SparseMerkleTree.with_depth d).depth = d := rfl
  rw [hdd]
  rw [splitLeaf_none B d k2 v2 k1 v1 d 0 (by omega)
    (fun j hj1 hj2 => (hagree j hj2).symm)]

/-- Claim C6, counterexample: with depth 1 and two distinct keys with identical
digest bits, the second insert is a `panic!` (modelled `none`), not a
reported `KeyCollision` error — indeed `IndexerError` has no
`KeyCollision` variant at all. -/
theorem smt_keycollision_counterexample :
    (((SparseMerkleTree.with_depth 1).insert allZeroBits "a" "x").bind
      (fun t => t.insert allZeroBits "b" "y")) = none := by
  decide

theorem smt_keycollision_panics_witness :
    (SparseMerkleTree.mk (SNode.leaf "a" "x") (SDigest.kv "a" "x") 1).insert
      allZeroBits "b" "y" = none :=
  smt_keycollision_panics allZeroBits 1 "a" "x" "b" "y"
    (SparseMerkleTree.mk (SNode.leaf "a" "x") (SDigest.kv "a" "x") 1)
    (by decide) (by decide) (fun j hj => rfl) (by decide)

theorem splitLeaf_some (B : String → Nat → Bool) (depth : Nat) (k v k' v' : String) :
    ∀ (fuel h : Nat), depth ≤ h + 1 + fuel →
    (∃ j, h ≤ j ∧ j < depth ∧ B k j ≠ B k' j) →
    ∃ m, splitLeaf B depth k v k' v' fuel h = some m := by
  intro fuel
  induction fuel with
  | zero =>
    intro h hfuel hsep
    obtain ⟨j, hj1, hj2, hne⟩ := hsep
    have hjh : j = h := by omega
    subst hjh
    rw [splitLeaf]
    rw [if_neg hne]
    exact ⟨_, rfl⟩
  | succ fuel1 ih =>
    intro h hfuel hsep
    rw [splitLeaf]
    by_cases hb : B k h = B k' h
    · obtain ⟨j, hj1, hj2, hne⟩ := hsep
      have hjh : j ≠ h := fun he => hne (he ▸ hb)
      have hd1 : ¬ depth ≤ h + 1 := by omega
      rw [if_pos hb, if_neg hd1]
      obtain ⟨m, hm⟩ := ih (h + 1) (by omega) ⟨j, by omega, hj2, hne⟩
      rw [hm]
      exact ⟨_, rfl⟩
    · rw [if_neg hb]
      exact ⟨_, rfl⟩

theorem insertNode_success (B : String → Nat → Bool) (depth : Nat) (k v : String) :
    ∀ (n : SNode) (hh : Nat) (es : List (String × String)), IsTrie B n hh es →
    (∀ e ∈ es, e.1 ≠ k → ∃ j, hh ≤ j ∧ j < depth ∧ B k j ≠ B e.1 j) →
    ∃ n', insertNode B depth k v n hh = some n' := by
  intro n hh es ht
  induction ht with
  | empty h0 =>
    intro hsep
    exact ⟨SNode.leaf k v, rfl⟩
  | leaf kk vv h0 =>
    intro hsep
    by_cases hkeq : kk = k
    · exact ⟨SNode.leaf k v, by simp [insertNode, hkeq]⟩
    · obtain ⟨j, hj1, hj2, hne⟩ := hsep (kk, vv) (by simp) hkeq
      obtain ⟨m, hm⟩ := splitLeaf_some B depth k v kk vv depth h0 (by omega)
        ⟨j, hj1, hj2, hne⟩
      exact ⟨m, by simp [insertNode, hkeq, hm]⟩
  | branch l r esl esr h0 hl hr hbl hbr hlen2 ihl ihr =>
    intro hsep
    by_cases hb : B k h0
    · have hsub : ∀ e ∈ esr, e.1 ≠ k →
          ∃ j, h0 + 1 ≤ j ∧ j < depth ∧ B k j ≠ B e.1 j := by
        intro e he hek
        obtain ⟨j, hj1, hj2, hne⟩ := hsep e (List.mem_append_right _ he) hek
        have hjh : j ≠ h0 := by
          intro he0
          rw [he0, hb, hbr e he] at hne
          exact hne rfl
        exact ⟨j, by omega, hj2, hne⟩
      obtain ⟨r', hr'⟩ := ihr hsub
      refine ⟨new_branch l r', ?_⟩
      show insertNode B depth k v (new_branch l r) h0 = _
      simp [insertNode, new_branch, hb, hr']
    · have hsub : ∀ e ∈ esl, e.1 ≠ k →
          ∃ j, h0 + 1 ≤ j ∧ j < depth ∧ B k j ≠ B e.1 j := by
        intro e he hek
        obtain ⟨j, hj1, hj2, hne⟩ := hsep e (List.mem_append_left _ he) hek
        have hjh : j ≠ h0 := by
          intro he0
          have hbf : B k h0 = false := by
            cases hx : B k h0 with
            | false => rfl
            | true => exact absurd hx hb
          rw [he0, hbf, hbl e he] at hne
          exact hne rfl
        exact ⟨j, by omega, hj2, hne⟩
      obtain ⟨l', hl'⟩ := ihl hsub
      refine ⟨new_branch l' r, ?_⟩
      show insertNode B depth k v (new_branch l r) h0 = _
      simp [insertNode, new_branch, hb, hl']

/-- Every insert in a pairwise-separated batch succeeds. -/
theorem applyInserts_some (B : String → Nat → Bool) (d : Nat) :
    ∀ (ops : List (String × String)) (t : SparseMerkleTree)
    (es : List (String × String)), IsTrie B t.root 0 es → t.depth = d →
    (∀ e1 ∈ ops, ∀ e2 ∈ es, e1.1 ≠ e2.1 → ∃ j, j < d ∧ B e1.1 j ≠ B e2.1 j) →
    (∀ e1 ∈ ops, ∀ e2 ∈ ops, e1.1 ≠ e2.1 → ∃ j, j < d ∧ B e1.1 j ≠ B e2.1 j) →
    ∃ t', applyInserts B t ops = some t'
  | [], t, es, ht, hdepth, hsep1, hsep2 => ⟨t, rfl⟩
  | (k, v) :: rest, t, es, ht, hdepth, hsep1, hsep2 => by
    have hstep : ∀ e ∈ es, e.1 ≠ k →
        ∃ j, 0 ≤ j ∧ j < t.depth ∧ B k j ≠ B e.1 j := by
      intro e he hek
      obtain ⟨j, hj, hne⟩ := hsep1 (k, v) (by simp) e he (fun hx => hek hx.symm)
      rw [hdepth]
      exact ⟨j, by omega, hj, hne⟩
    obtain ⟨root', hroot'⟩ := insertNode_success B t.depth k v t.root 0 es ht hstep
    have hins : t.insert B k v =
        some (SparseMerkleTree.mk root' root'.get_hash t.depth) := by
      unfold SparseMerkleTree.insert
      rw [hroot']
    obtain ⟨es1, hTrie1, hlook1, hkeys1, _⟩ :=
      insertNode_spec B t.depth k v t.root 0 es ht root' hroot'
    have hrest1 : ∀ e1 ∈ rest, ∀ e2 ∈ es1, e1.1 ≠ e2.1 →
        ∃ j, j < d ∧ B e1.1 j ≠ B e2.1 j := by
      intro e1 he1 e2 he2 hke
      rcases hkeys1 e2 he2 with hek | ⟨e0, he0, hek⟩
      · obtain ⟨j, hj, hne⟩ := hsep2 e1 (by simp [he1]) (k, v) (by simp)
          (by rw [hek] at hke; exact hke)
        exact ⟨j, hj, by rw [hek]; exact hne⟩
      · obtain ⟨j, hj, hne⟩ := hsep1 e1 (by simp [he1]) e0 he0
          (by rw [hek] at hke; exact hke)
        exact ⟨j, hj, by rw [hek]; exact hne⟩
    have hrest2 : ∀ e1 ∈ rest, ∀ e2 ∈ rest, e1.1 ≠ e2.1 →
        ∃ j, j < d ∧ B e1.1 j ≠ B e2.1 j := by
      intro e1 he1 e2 he2 hke
      exact hsep2 e1 (by simp [he1]) e2 (by simp [he2]) hke
    obtain ⟨t', ht'⟩ := applyInserts_some B d rest
      (SparseMerkleTree.mk root' root'.get_hash t.depth) es1 hTrie1 hdepth hrest1 hrest2
    refine ⟨t', ?_⟩
    simp only [applyInserts]
    rw [hins]
    exact ht'

theorem isTrie_keys_nodup (B : String → Nat → Bool) :
    ∀ (n : SNode) (hh : Nat) (es : List (String × String)), IsTrie B n hh es →
    (es.map Prod.fst).Nodup := by
  intro n hh es ht
  induction ht with
  | empty h0 => simp
  | leaf k v h0 => simp
  | branch l r esl esr h0 hl hr hbl hbr hlen2 ihl ihr =>
    rw [List.map_append]
    refine List.Nodup.append ihl ihr ?_
    intro a hal har
    obtain ⟨e1, he1, hae1⟩ := List.mem_map.mp hal
    obtain ⟨e2, he2, hae2⟩ := List.mem_map.mp har
    have h1 := hbl e1 he1
    have h2 := hbr e2 he2
    rw [hae1] at h1
    rw [hae2] at h2
    rw [h1] at h2
    exact absurd h2 (by simp)

theorem lookupKV_some_mem : ∀ (es : List (String × String)) (k v : String),
    lookupKV es k = some v → (k, v) ∈ es
  | [], k, v, h => by simp [lookupKV] at h
  | (k1, v1) :: rest, k, v, h => by
    simp only [lookupKV] at h
    by_cases hk : k1 = k
    · rw [if_pos hk] at h
      simp only [Option.some.injEq] at h
      subst hk
      rw [← h]
      simp
    · rw [if_neg hk] at h
      exact List.mem_cons_of_mem _ (lookupKV_some_mem rest k v h)

theorem mem_lookupKV_of_nodup : ∀ (es : List (String × String)) (k v : String),
    (es.map Prod.fst).Nodup → (k, v) ∈ es → lookupKV es k = some v
  | [], k, v, hd, h => by simp at h
  | (k1, v1) :: rest, k, v, hd, h => by
    simp only [lookupKV]
    rcases List.mem_cons.mp h with he | he
    · obtain ⟨hk, hv⟩ := Prod.mk.inj (he.symm)
      rw [if_pos hk, hv]
    · by_cases hk : k1 = k
      · exfalso
        simp only [List.map_cons, List.nodup_cons] at hd
        apply hd.1
        rw [hk]
        exact List.mem_map.mpr ⟨(k, v), he, rfl⟩
      · rw [if_neg hk]
        exact mem_lookupKV_of_nodup rest k v (by simp at hd; exact hd.2) he

/-- Inversion: a trie with no entries is the empty node. -/
theorem trie_inv_empty (B : String → Nat → Bool) {n : SNode} {hh : Nat}
    {es : List (String × String)} (ht : IsTrie B n hh es) (he : es = []) :
    n = SNode.empty := by
  cases ht with
  | empty => rfl
  | leaf k v => simp at he
  | branch l r esl esr h0 hl hr hbl hbr hlen2 =>
    exfalso
    have hlen0 : (esl ++ esr).length = 0 := by rw [he]; rfl
    rw [List.length_append] at hlen0
    omega

/-- Inversion: a trie with a single entry is that leaf. -/
theorem trie_inv_single (B : String → Nat → Bool) {n : SNode} {hh : Nat}
    {es : List (String × String)} {k v : String} (ht : IsTrie B n hh es)
    (he : es = [(k, v)]) : n = SNode.leaf k v := by
  cases ht with
  | empty => simp at he
  | leaf k0 v0 =>
    obtain ⟨hk, hv⟩ := Prod.mk.inj (List.cons.inj he).1
    rw [hk, hv]
  | branch l r esl esr h0 hl hr hbl hbr hlen2 =>
    exfalso
    have hlen0 : (esl ++ esr).length = 1 := by rw [he]; rfl
    rw [List.length_append] at hlen0
    omega

/-- Inversion: a trie with at least two entries is a branch whose sides
are the bit-`hh` partition of the entries. -/
theorem trie_inv_branch (B : String → Nat → Bool) {n : SNode} {hh : Nat}
    {es : List (String × String)} (ht : IsTrie B n hh es) (he : 2 ≤ es.length) :
    ∃ l r esl esr, n = new_branch l r ∧ IsTrie B l (hh + 1) esl ∧
      IsTrie B r (hh + 1) esr ∧ es = esl ++ esr ∧
      (∀ e ∈ esl, B e.1 hh = false) ∧ (∀ e ∈ esr, B e.1 hh = true) := by
  cases ht with
  | empty => simp at he
  | leaf k0 v0 => simp at he
  | branch l r esl esr h0 hl hr hbl hbr hlen2 =>
    exact ⟨l, r, esl, esr, rfl, hl, hr, rfl, hbl, hbr⟩

/-- Canonicity: a node is determined by its entry list up to permutation. -/
theorem trie_unique (B : String → Nat → Bool) :
    ∀ (n : SNode) (hh : Nat) (es : List (String × String)), IsTrie B n hh es →
    ∀ (n' : SNode) (es' : List (String × String)), IsTrie B n' hh es' →
    es.Perm es' → n = n' := by
  intro n hh es ht
  induction ht with
  | empty h0 =>
    intro n' es' ht' hperm
    rw [trie_inv_empty B ht' (List.Perm.eq_nil hperm.symm)]
  | leaf k v h0 =>
    intro n' es' ht' hperm
    rw [trie_inv_single B ht' (List.perm_singleton.mp hperm.symm)]
  | branch l r esl esr h0 hl hr hbl hbr hlen2 ihl ihr =>
    intro n' es' ht' hperm
    have hlen' : 2 ≤ es'.length := by
      have := hperm.length_eq
      simp at this
      omega
    obtain ⟨l', r', esl', esr', hn', hl', hr', hes', hbl', hbr'⟩ :=
      trie_inv_branch B ht' hlen'
    have hfl : (esl ++ esr).filter (fun e => ! B e.1 h0) = esl := by
      rw [List.filter_append]
      rw [List.filter_eq_self.mpr (by intro e he; simp [hbl e he])]
      rw [List.filter_eq_nil_iff.mpr (by intro e he; simp [hbr e he])]
      simp
    have hfr : (esl ++ esr).filter (fun e => B e.1 h0) = esr := by
      rw [List.filter_append]
      rw [List.filter_eq_nil_iff.mpr (by intro e he; simp [hbl e he])]
      rw [List.filter_eq_self.mpr (by intro e he; exact hbr e he)]
      simp
    have hfl' : es'.filter (fun e => ! B e.1 h0) = esl' := by
      rw [hes', List.filter_append]
      rw [List.filter_eq_self.mpr (by intro e he; simp [hbl' e he])]
      rw [List.filter_eq_nil_iff.mpr (by intro e he; simp [hbr' e he])]
      simp
    have hfr' : es'.filter (fun e => B e.1 h0) = esr' := by
      rw [hes', List.filter_append]
      rw [List.filter_eq_nil_iff.mpr (by intro e he; simp [hbl' e he])]
      rw [List.filter_eq_self.mpr (by intro e he; exact hbr' e he)]
      simp
    have hpl : esl.Perm esl' := by
      rw [← hfl, ← hfl']
      exact hperm.filter _
    have hpr : esr.Perm esr' := by
      rw [← hfr, ← hfr']
      exact hperm.filter _
    rw [hn']
    rw [ihl l' esl' hl' hpl, ihr r' esr' hr' hpr]

theorem opsApply_perm {ops1 ops2 : List (String × String)} (hp : ops1.Perm ops2) :
    (ops1.map Prod.fst).Nodup →
    ∀ (m : String → Option String) (k0 : String),
    opsApply ops1 m k0 = opsApply ops2 m k0 := by
  induction hp with
  | nil =>
    intro hnd m k0
    rfl
  | cons x p ih =>
    intro hnd m k0
    obtain ⟨x1, x2⟩ := x
    simp only [opsApply]
    exact ih (by simp at hnd; exact hnd.2) _ k0
  | swap x y l =>
    intro hnd m k0
    obtain ⟨x1, x2⟩ := x
    obtain ⟨y1, y2⟩ := y
    have hxy : y1 ≠ x1 := by
      simp at hnd
      exact fun he => hnd.1.1 he
    simp only [opsApply]
    refine opsApply_congr l _ _ (fun k1 => ?_) k0
    have hxy2 : ¬ x1 = y1 := fun he => hxy he.symm
    by_cases h1 : k1 = x1
    · have h2 : ¬ k1 = y1 := fun he => hxy (by rw [← he, h1])
      simp [h1, h2, hxy2]
    · by_cases h2 : k1 = y1
      · simp [h1, h2, hxy2, hxy]
      · simp [h1, h2]
  | trans p1 p2 ih1 ih2 =>
    intro hnd m k0
    rw [ih1 hnd m k0]
    exact ih2 (((p1.map Prod.fst).nodup_iff).mp hnd) m k0

/-- Claim C5, amended: for pairwise-distinct keys that are also pairwise
*separated within the first `depth` digest bits*, every insertion order
succeeds and any two orders yield the same `commit()` root. -/
theorem smt_insert_order_independent (B : String → Nat → Bool) (d : Nat)
    (ops1 ops2 : List (String × String)) (hperm : ops1.Perm ops2)
    (hnodup : (ops1.map Prod.fst).Nodup)
    (hsep : ∀ e1 ∈ ops1, ∀ e2 ∈ ops1, e1.1 ≠ e2.1 →
      ∃ j, j < d ∧ B e1.1 j ≠ B e2.1 j) :
    ∃ t1 t2, applyInserts B (SparseMerkleTree.with_depth d) ops1 = some t1 ∧
      applyInserts B (SparseMerkleTree.with_depth d) ops2 = some t2 ∧
      t1.commit = t2.commit := by
  obtain ⟨t1, ht1⟩ := applyInserts_some B d ops1 (SparseMerkleTree.with_depth d) []
    (IsTrie.empty 0) rfl (by intro e1 he1 e2 he2; simp at he2) hsep
  have hsep2 : ∀ e1 ∈ ops2, ∀ e2 ∈ ops2, e1.1 ≠ e2.1 →
      ∃ j, j < d ∧ B e1.1 j ≠ B e2.1 j := by
    intro e1 he1 e2 he2 hke
    exact hsep e1 (hperm.mem_iff.mpr he1) e2 (hperm.mem_iff.mpr he2) hke
  obtain ⟨t2, ht2⟩ := applyInserts_some B d ops2 (SparseMerkleTree.with_depth d) []
    (IsTrie.empty 0) rfl (by intro e1 he1 e2 he2; simp at he2) hsep2
  obtain ⟨es1, hTrie1, hdig1, _, hlook1, _⟩ := applyInserts_spec B ops1
    (SparseMerkleTree.with_depth d) t1 [] (IsTrie.empty 0) rfl ht1
  obtain ⟨es2, hTrie2, hdig2, _, hlook2, _⟩ := applyInserts_spec B ops2
    (SparseMerkleTree.with_depth d) t2 [] (IsTrie.empty 0) rfl ht2
  have hlookeq : ∀ k0, lookupKV es1 k0 = lookupKV es2 k0 := by
    intro k0
    rw [hlook1 k0, hlook2 k0]
    exact opsApply_perm hperm hnodup _ k0
  have hnd1 : (es1.map Prod.fst).Nodup := isTrie_keys_nodup B t1.root 0 es1 hTrie1
  have hnd2 : (es2.map Prod.fst).Nodup := isTrie_keys_nodup B t2.root 0 es2 hTrie2
  have hes : es1.Perm es2 := by
    refine (List.perm_ext_iff_of_nodup hnd1.of_map hnd2.of_map).mpr ?_
    rintro ⟨k0, v0⟩
    constructor
    · intro hmem
      exact lookupKV_some_mem es2 k0 v0
        (by rw [← hlookeq k0]; exact mem_lookupKV_of_nodup es1 k0 v0 hnd1 hmem)
    · intro hmem
      exact lookupKV_some_mem es1 k0 v0
        (by rw [hlookeq k0]; exact mem_lookupKV_of_nodup es2 k0 v0 hnd2 hmem)
  have hroot : t1.root = t2.root :=
    trie_unique B t1.root 0 es1 hTrie1 t2.root es2 hTrie2 hes
  exact ⟨t1, t2, ht1, ht2, by rw [SparseMerkleTree.commit, SparseMerkleTree.commit,
    hdig1, hdig2, hroot]⟩

/-- Claim C5, counterexample: with depth 2 and the digest bits of `collideBits`,
the keys "a", "b", "c" are pairwise distinct, yet inserting them in the
order a, c, b succeeds while the order a, b, c hits the key-collision
`panic!` ("a" and "b" agree on the first two digest bits): insertion
order is not irrelevant — one order yields a tree, the other yields
none. -/
theorem smt_order_counterexample :
    (applyInserts collideBits (SparseMerkleTree.with_depth 2)
        [("a", "x"), ("c", "z"), ("b", "y")]).isSome = true ∧
      applyInserts collideBits (SparseMerkleTree.with_depth 2)
        [("a", "x"), ("b", "y"), ("c", "z")] = none := by
  decide

theorem smt_insert_order_independent_witness :
    ∃ t1 t2, applyInserts oneBit (SparseMerkleTree.with_depth 2)
        [("0", "a"), ("1", "b")] = some t1 ∧
      applyInserts oneBit (SparseMerkleTree.with_depth 2)
        [("1", "b"), ("0", "a")] = some t2 ∧
      t1.commit = t2.commit :=
  smt_insert_order_independent oneBit 2 [("0", "a"), ("1", "b")]
    [("1", "b"), ("0", "a")] (List.Perm.swap ("1", "b") ("0", "a") [])
    (by decide) (by decide)
